import Mathlib

/-!
Verification of the `enfyra-sdk-nuxt` client-side batch execution engine.

This file shallowly embeds the client-mode part of `useEnfyraApi`
(`execute`, the inner `processBatch`, `updateProgress`, `buildPath`) and the
`$fetch` utility, and proves/refutes the frozen specification claims about
them.

Modelling conventions:
* The per-item network request issued by the batch `processor` is abstracted
  by an `ItemBeh` (behaviour) attached to the item: its wall-clock duration
  in milliseconds and its outcome (`Except` error payload / success value).
  Response and error payloads are opaque `Nat` tokens.
* Time is a virtual millisecond clock started at 0 (`startTime = Date.now()`
  becomes 0).  All items of one `Promise.all` wave are launched at the same
  instant (the `async` callbacks of `.map` run synchronously up to their
  first `await`); item `i` of a wave started at `t0` settles at
  `t0 + duration i`.  Settlement callbacks run in completion order
  (stable on ties); `Promise.all` itself settles when the last item does,
  and rejects with the first rejection in completion order.  One
  simplification: when a wave contains a rejection, the model lets every
  settlement callback of that wave run (push its outcome and emit progress)
  before the rejection propagates out of `processBatch`; in the JS event
  loop the rejection can propagate interleaved with the trailing callbacks,
  but the set and order of pushed outcomes and emitted snapshots is the
  same, and no claim observes the relative timing.
* JS floating point arithmetic inside `updateProgress` is idealised as exact
  rational arithmetic (`ℚ`).
-/

namespace Enfyra

/-- JS truthiness of a numeric option that may be `undefined`:
`undefined` and `0` are falsy, every other number is truthy. -/
def truthy : Option Int → Bool
  | none => false
  | some n => n != 0

instance {ε α : Type} [DecidableEq ε] [DecidableEq α] : DecidableEq (Except ε α) := fun a b =>
  match a, b with
  | .ok x, .ok y => if h : x = y then .isTrue (by rw [h]) else .isFalse (by simp [h])
  | .error x, .error y => if h : x = y then .isTrue (by rw [h]) else .isFalse (by simp [h])
  | .ok _, .error _ => .isFalse (by simp)
  | .error _, .ok _ => .isFalse (by simp)

/-- Behaviour of one item's request: wall-clock duration (ms) and outcome.
`Except.error e` models the promise rejecting with payload `e`. -/
structure ItemBeh where
  duration : Nat
  outcome : Except Nat Nat
deriving Repr, DecidableEq

/-- Whether the item's request succeeds. -/
def ItemBeh.isOk (b : ItemBeh) : Bool :=
  match b.outcome with
  | .ok _ => true
  | .error _ => false

/-- Status recorded in a progress-results entry. -/
inductive OpStatus
  | completed
  | failed
deriving Repr, DecidableEq

/-- One entry of the `progressResults` log
(`{index, status, result?, error?, duration}`). -/
structure Outcome where
  index : Nat
  status : OpStatus
  result : Option Nat
  error : Option Nat
  duration : Nat
deriving Repr, DecidableEq

/-- Math.round for the nonnegative rationals produced by `updateProgress`:
round half up, i.e. the floor of `q + 1/2`.  All uses are nonnegative, where
integer truncation and floor agree. -/
def jsRound (q : ℚ) : Int :=
  (q + 1/2).num / ((q + 1/2).den : Int)

/-- A `BatchProgress` snapshot as handed to `onProgress`.  The extra
`elapsedMs` field is a ghost field recording `Date.now() - startTime` at the
moment of emission; it is not part of the wire shape but is needed to state
what the derived statistics are functions of. -/
structure Snapshot where
  progress : Int
  completed : Nat
  total : Nat
  failed : Nat
  inProgress : Nat
  estimatedTimeRemaining : Option Int
  averageTime : Option ℚ
  currentBatch : Nat
  totalBatches : Nat
  operationsPerSecond : Option ℚ
  results : List Outcome
  elapsedMs : Nat

/-- Body of `updateProgress` (source lines 170-201): derives one snapshot
from the counters, the clock and the log.  `curBatch` is the `currentBatch`
variable (0-based); the snapshot stores `currentBatch + 1`. -/
def mkSnapshot (completed total failed inProg curBatch totalBatches : Nat)
    (elapsed : Nat) (log : List Outcome) : Snapshot :=
  let progress : Int :=
    if 0 < total then jsRound ((completed : ℚ) / (total : ℚ) * 100) else 0
  let averageTime : Option ℚ :=
    if 0 < completed then some ((elapsed : ℚ) / (completed : ℚ)) else none
  let ops : Option ℚ :=
    if 0 < completed then some ((completed : ℚ) / (elapsed : ℚ) * 1000) else none
  -- `averageTime && items.length > completed`: `averageTime` is undefined when
  -- `completed = 0` and the number 0 (hence falsy) when `elapsed = 0`.
  let est : Option Int :=
    if 0 < completed ∧ 0 < elapsed ∧ completed < total then
      some (jsRound ((elapsed : ℚ) / (completed : ℚ) * ((total : ℚ) - (completed : ℚ))))
    else none
  ⟨progress, completed, total, failed, inProg, est, averageTime,
    curBatch + 1, totalBatches, ops, log, elapsed⟩

/-- Batch configuration effective for one `processBatch` call:
`effectiveBatchSize`, `effectiveConcurrent` (JS numbers or `undefined`) and
whether `effectiveOnProgress` is set. -/
structure Cfg where
  batchSize : Option Int
  concurrent : Option Int
  hasOnProgress : Bool
deriving Repr, DecidableEq

/-- Mutable state threaded through one `processBatch` call: the `completed`
and `failed` counters, the `progressResults` log, the emitted snapshots (in
emission order), the virtual clock, the `currentBatch` variable and the
outer `results` array. -/
structure RunSt where
  completed : Nat
  failed : Nat
  log : List Outcome
  snaps : List Snapshot
  time : Nat
  curBatch : Nat
  results : List Nat

/-- State at the start of `processBatch`. -/
def initSt : RunSt := ⟨0, 0, [], [], 0, 0, []⟩

/-- A call of `updateProgress(inProg)`: when `effectiveOnProgress` is set,
computes a snapshot from the current state and appends it to the emission
log; otherwise does nothing. -/
def updateProgress (cfg : Cfg) (total tb : Nat) (inProg : Nat) (st : RunSt) : RunSt :=
  if cfg.hasOnProgress then
    { st with snaps := st.snaps ++
        [mkSnapshot st.completed total st.failed inProg st.curBatch tb st.time st.log] }
  else st

/-- A settlement event: the `globalIndex` passed to the processor, the
item's position (`batchItemIndex`) inside its wave array, the absolute
settlement time, and the item's behaviour. -/
structure Ev where
  gIdx : Nat
  pos : Nat
  endTime : Nat
  beh : ItemBeh
deriving Repr, DecidableEq

/-- Settlement events of a wave launched at `t0`, in submission order. -/
def waveEvs (base t0 : Nat) (wave : List ItemBeh) : List Ev :=
  wave.enum.map fun p => ⟨base + p.1, p.1, t0 + p.2.duration, p.2⟩

/-- Insert an event into a list sorted by settlement time, after all events
that settle no later (so that the sort below is stable: on simultaneous
settlement, submission order is kept). -/
def insertByTime (e : Ev) : List Ev → List Ev
  | [] => [e]
  | f :: fs => if e.endTime ≤ f.endTime then e :: f :: fs else f :: insertByTime e fs

/-- Stable sort of settlement events by settlement time: the order in which
the `async` continuations run. -/
def sortByTime : List Ev → List Ev
  | [] => []
  | e :: es => insertByTime e (sortByTime es)

/-- The `progressResults` entry pushed when event `e` settles. -/
def entryOf (e : Ev) : Outcome :=
  match e.beh.outcome with
  | .ok v => ⟨e.gIdx, .completed, some v, none, e.beh.duration⟩
  | .error err => ⟨e.gIdx, .failed, none, some err, e.beh.duration⟩

/-- Settlement callback of one item (source lines 208-238, 258-295 and
305-342): bump the counters, push the outcome, and call `updateProgress`.
`branchA` selects the unchunked/unbounded branch (lines 205-243), whose
`inProgress` argument is `items.length - completed`; the chunk/wave branches
pass `Math.max(0, waveLen - (batchItemIndex + 1))`. -/
def applyEv (cfg : Cfg) (total tb wlen : Nat) (branchA : Bool) (st : RunSt) (e : Ev) : RunSt :=
  let fail := !e.beh.isOk
  let st' : RunSt :=
    { st with
      completed := st.completed + 1
      failed := if fail then st.failed + 1 else st.failed
      log := st.log ++ [entryOf e]
      time := e.endTime }
  let inProg := if branchA then total - st'.completed else wlen - (e.pos + 1)
  updateProgress cfg total tb inProg st'

/-- The array `Promise.all` resolves with for a wave in which every item
succeeded: the success values in submission order.  (The `0` placeholder for
a failed item is never observable: the array is only used when the wave had
no failure.) -/
def okValues (wave : List ItemBeh) : List Nat :=
  wave.map fun b =>
    match b.outcome with
    | .ok v => v
    | .error _ => 0

/-- The rejection payload of one settlement event, if it rejects. -/
def evErr (e : Ev) : Option Nat :=
  match e.beh.outcome with
  | .ok _ => none
  | .error err => some err

/-- The rejection payload `Promise.all` rejects with, if any: the error of
the first rejecting item in completion order. -/
def firstErr (evs : List Ev) : Option Nat :=
  evs.findSome? evErr

/-- Duration of a whole wave: `Promise.all` settles when the last item does. -/
def maxDur (wave : List ItemBeh) : Nat :=
  (wave.map ItemBeh.duration).foldl max 0

/-- Run one wave (one `Promise.all` group): set `currentBatch`, emit the
pre-wave `updateProgress(batch.length)` (source lines 206, 256, 303), run
every settlement callback in completion order, advance the clock to the
wave's settlement, and either reject with the first failure or append the
resolved values to `results`. -/
def runWave (cfg : Cfg) (total tb : Nat) (branchA : Bool) (ci base : Nat)
    (wave : List ItemBeh) (st : RunSt) : RunSt × Option Nat :=
  let st0 := { st with curBatch := ci }
  let st1 := updateProgress cfg total tb wave.length st0
  let evs := sortByTime (waveEvs base st1.time wave)
  let st2 := evs.foldl (applyEv cfg total tb wave.length branchA) st1
  let st3 := { st2 with time := st1.time + maxDur wave }
  match firstErr evs with
  | some e => (st3, some e)
  | none => ({ st3 with results := st3.results ++ okValues wave }, none)

/-- The consecutive slices of length `b` of a list, mirroring
`Array.from({length: Math.ceil(items.length / b)}, (_, i) =>
items.slice(i * b, i * b + b))` for `b > 0`. -/
def slices (b : Nat) (items : List α) : List (List α) :=
  (List.range ((items.length + b - 1) / b)).map fun i => (items.drop (i * b)).take b

/-- The chunk list computed at source lines 156-165:
`effectiveBatchSize ? chunks : [items]`.  A zero batch size is falsy and
yields the single chunk `[items]`; for a negative batch size
`Math.ceil(n / b) ≤ 0` and `Array.from` clamps the length to 0, yielding no
chunks at all. -/
def jsChunks (bs : Option Int) (items : List α) : List (List α) :=
  match bs with
  | none => [items]
  | some b =>
    if b == 0 then [items]
    else if 0 < b then slices b.toNat items
    else []

/-- The wave decomposition of one chunk: when `effectiveConcurrent` is
truthy and the chunk is larger than it (source line 250), the chunk is cut
into slices of that size by the `for (i += effectiveConcurrent)` loop;
otherwise the whole chunk is one `Promise.all` group (lines 300-346).
For a negative limit with an over-long chunk the source loop never
terminates; the model returns `[]` there and no theorem below reaches that
case (all hypotheses require a nonnegative limit). -/
def chunkWaves (conc : Option Int) (chunk : List α) : List (List α) :=
  match conc with
  | none => [chunk]
  | some k =>
    if k == 0 then [chunk]
    else if (chunk.length : Int) > k then
      if 0 < k then slices k.toNat chunk else []
    else [chunk]

/-- The multiplier in `baseIndex = chunkIndex * (effectiveBatchSize ||
items.length) + i` (source lines 254, 301). -/
def baseFactor (bs : Option Int) (totalLen : Nat) : Nat :=
  match bs with
  | none => totalLen
  | some b => if b == 0 then totalLen else b.toNat

/-- Offset step between waves of one chunk: the wave starting at loop index
`i` has `i = j * effectiveConcurrent` for the `j`-th wave. -/
def concStep (conc : Option Int) : Nat :=
  match conc with
  | none => 0
  | some k => k.toNat

/-- One wave together with its chunk index and the base index of its first
item. -/
structure WaveInfo where
  ci : Nat
  base : Nat
  wave : List ItemBeh
deriving Repr, DecidableEq

/-- The statically determined sequence of `Promise.all` groups of a
`processBatch` call, in execution order, with each group's `currentBatch`
value and base index. -/
def waveInfos (cfg : Cfg) (items : List ItemBeh) : List WaveInfo :=
  (jsChunks cfg.batchSize items).enum.flatMap fun pc =>
    (chunkWaves cfg.concurrent pc.2).enum.map fun pw =>
      ⟨pc.1, pc.1 * baseFactor cfg.batchSize items.length + pw.1 * concStep cfg.concurrent, pw.2⟩

/-- Run the wave groups in order, stopping at (and propagating) the first
rejection, which aborts the remaining waves and chunks. -/
def runWaves (cfg : Cfg) (total tb : Nat) (branchA : Bool) :
    List WaveInfo → RunSt → RunSt × Option Nat
  | [], st => (st, none)
  | w :: ws, st =>
    match runWave cfg total tb branchA w.ci w.base w.wave st with
    | (st', none) => runWaves cfg total tb branchA ws st'
    | (st', some e) => (st', some e)

/-- The inner `processBatch` (source lines 146-351).  Returns the final
state together with the settled value of the returned promise:
`Except.ok results` on resolution, `Except.error e` on rejection. -/
def processBatch (cfg : Cfg) (items : List ItemBeh) : RunSt × Except Nat (List Nat) :=
  let total := items.length
  let tb := (jsChunks cfg.batchSize items).length
  let branchA := !truthy cfg.batchSize && !truthy cfg.concurrent
  let st := updateProgress cfg total tb 0 initSt
  match runWaves cfg total tb branchA (waveInfos cfg items) st with
  | (st', none) => (updateProgress cfg total tb 0 st', .ok st'.results)
  | (st', some e) => (st', .error e)

/-! The request state facade: the client-mode `execute` of `useEnfyraApi`
(source lines 105-416). -/

/-- A path segment passed as `id`: a JS string or number. -/
inductive Seg
  | str (v : String)
  | num (v : Int)
deriving Repr, DecidableEq

/-- JS truthiness of a segment: the empty string and the number 0 are falsy. -/
def Seg.isTruthy : Seg → Bool
  | .str v => v != ""
  | .num v => v != 0

/-- JS stringification of a segment, as done by `Array.prototype.join`. -/
def Seg.toStr : Seg → String
  | .str v => v
  | .num v => toString v

/-- The inner `buildPath` (source lines 140-142):
`segments.filter(Boolean).join("/")`. -/
def buildPath (segments : List Seg) : String :=
  String.intercalate "/" ((segments.filter Seg.isTruthy).map Seg.toStr)

/-- Options bound when the composable is created (the subset relevant to
client-mode `execute`).  Callbacks are modelled by their presence. -/
structure FacadeOpts where
  method : String
  disableBatch : Bool
  batchSize : Option Int
  concurrent : Option Int
  hasOnProgress : Bool
deriving Repr, DecidableEq

/-- Per-call `ExecuteOptions` (the subset relevant to the claims).  The
`ids` and `files` lists carry the behaviour of each item's request directly
(the id/file values themselves only vary the request target, which the
behaviour abstracts). -/
structure ExecOpts where
  ids : Option (List ItemBeh)
  files : Option (List ItemBeh)
  id : Option Seg
  batchSize : Option Int
  concurrent : Option Int
  hasOnProgress : Bool
deriving Repr, DecidableEq

/-- Result of one settled `execute` call: the reactive refs after the
`finally`, the value the promise resolves with (`none` models the `null`
returned from the `catch` branch), and the batch log/snapshots for
inspection. -/
inductive DataVal
  | single (v : Nat)
  | batch (vs : List Nat)
deriving Repr, DecidableEq

/-- Facade state after `execute` settles.  `data` is `none` when the ref was
left at its initial `null` (a fresh facade instance is assumed). -/
structure ExecResult where
  data : Option DataVal
  error : Option Nat
  pending : Bool
  ret : Option DataVal
  log : List Outcome
  snaps : List Snapshot

/-- ASCII lowercasing of one character, as `String.prototype.toLowerCase`
acts on the method names concerned here. -/
def charToLower (c : Char) : Char :=
  if c.isUpper then Char.ofNat (c.toNat + 32) else c

/-- The `method.toLowerCase()` of the source, character by character. -/
def jsToLower (s : String) : String := ⟨s.data.map charToLower⟩

/-- The batch-mode decision (source lines 119-128): never in batch mode when
`disableBatch` is set; otherwise a nonempty `ids` list with a patch/delete
method, or a post method with a nonempty `files` list. -/
def isBatchOperation (opts : FacadeOpts) (eo : ExecOpts) : Bool :=
  !opts.disableBatch &&
    ((eo.ids.isSome && decide (0 < (eo.ids.getD []).length) &&
        (jsToLower opts.method == "patch" || jsToLower opts.method == "delete")) ||
      (jsToLower opts.method == "post" && eo.files.isSome &&
        decide (0 < (eo.files.getD []).length)))

/-- The effective batch configuration (source lines 130-138):
per-call options override the composable-level ones via `??`, and outside
batch mode everything is `undefined`. -/
def effCfg (opts : FacadeOpts) (eo : ExecOpts) : Cfg :=
  if isBatchOperation opts eo then
    ⟨eo.batchSize.or opts.batchSize, eo.concurrent.or opts.concurrent,
      eo.hasOnProgress || opts.hasOnProgress⟩
  else ⟨none, none, false⟩

/-- The single-item request path (source lines 395-397):
`executeOpts?.id ? buildPath(basePath, executeOpts.id) : basePath`. -/
def singlePath (basePath : String) (id : Option Seg) : String :=
  match id with
  | some s => if s.isTruthy then buildPath [.str basePath, s] else basePath
  | none => basePath

/-- Client-mode `execute` (source lines 105-416) on a fresh facade.
`net` gives the behaviour of the single-item request as a function of its
final path.  A rejection of `processBatch` — or a failing single request —
is caught at line 409: `handleError` stores the error and `execute` returns
`null`; otherwise `data` is set and the response returned. -/
def execute (opts : FacadeOpts) (basePath : String) (net : String → ItemBeh)
    (eo : ExecOpts) : ExecResult :=
  let isBatch := isBatchOperation opts eo
  let cfg := effCfg opts eo
  if isBatch && eo.ids.isSome && decide (0 < (eo.ids.getD []).length) then
    match processBatch cfg (eo.ids.getD []) with
    | (st, .ok vs) =>
      ⟨some (.batch vs), none, false, some (.batch vs), st.log, st.snaps⟩
    | (st, .error e) =>
      ⟨none, some e, false, none, st.log, st.snaps⟩
  else if isBatch && eo.files.isSome && decide (0 < (eo.files.getD []).length) then
    match processBatch cfg (eo.files.getD []) with
    | (st, .ok vs) =>
      ⟨some (.batch vs), none, false, some (.batch vs), st.log, st.snaps⟩
    | (st, .error e) =>
      ⟨none, some e, false, none, st.log, st.snaps⟩
  else
    let b := net (singlePath basePath eo.id)
    match b.outcome with
    | .ok v => ⟨some (.single v), none, false, some (.single v), [], []⟩
    | .error e => ⟨none, some e, false, none, [], []⟩

/-! The `$fetch` utility (src/src/utils/http.ts). -/

/-- An HTTP response as seen by the `fetch` handling code: `ok` is the 2xx
flag, `jsonParse` the result of `response.json()` (`none` when the body is
not parseable JSON), `textBody` the raw body text.  Payloads are opaque
`Nat` tokens. -/
structure HttpResp where
  ok : Bool
  status : Nat
  statusText : String
  jsonParse : Option Nat
  contentTypeJson : Bool
  textBody : String
deriving Repr, DecidableEq

/-- What the transport produced: a response, or a network-level failure
(DNS, connection refused, timeout) carried as an opaque error token. -/
inductive FetchEnv
  | resp (r : HttpResp)
  | netFail (e : Nat)
deriving Repr, DecidableEq

/-- The `errorData` computed at source lines 65-70: the parsed JSON body if
parseable, else the object `{ message: response.statusText }`. -/
inductive ErrData
  | json (v : Nat)
  | statusMsg (m : String)
deriving Repr, DecidableEq

/-- The `response` sub-object of the value thrown on a non-2xx response.
The source builds `{ response: { data: errorData } }`; a `status` field,
had one been written, would appear here — `none` records its absence. -/
structure ErrResponseObj where
  data : ErrData
  status : Option Nat
deriving Repr, DecidableEq

/-- A successful `$fetch` return value: parsed JSON or raw text depending on
the content type (source lines 75-79). -/
inductive FetchVal
  | json (v : Nat)
  | text (t : String)
deriving Repr, DecidableEq

/-- A value thrown out of `$fetch`: the `{ response: { data } }` object of
the non-2xx branch, a JSON syntax error from the 2xx branch, or a
network-level error rethrown as-is. -/
inductive ThrownVal
  | http (o : ErrResponseObj)
  | syntaxErr
  | net (e : Nat)
deriving Repr, DecidableEq

/-- The status carried by a thrown value, at any of the places `handleError`
looks (`error.status`, `error.response.status`). -/
def ThrownVal.carriedStatus : ThrownVal → Option Nat
  | .http o => o.status
  | .syntaxErr => none
  | .net _ => none

/-- Response handling of `$fetch` (source lines 61-83).  Non-2xx: throw
`{ response: { data: errorData } }`.  2xx: parse by content type (a 2xx
JSON content type with an unparseable body rejects with the uncaught
`response.json()` error).  Network failure: the `catch` rethrows the error
unchanged. -/
def fetchResult (env : FetchEnv) : Except ThrownVal FetchVal :=
  match env with
  | .netFail e => .error (.net e)
  | .resp r =>
    if !r.ok then
      let errorData : ErrData :=
        match r.jsonParse with
        | some v => .json v
        | none => .statusMsg r.statusText
      .error (.http ⟨errorData, none⟩)
    else if r.contentTypeJson then
      match r.jsonParse with
      | some v => .ok (.json v)
      | none => .error .syntaxErr
    else
      .ok (.text r.textBody)

/-! Lemmas about the stable completion-order sort. -/

theorem insertByTime_perm (e : Ev) (l : List Ev) : (insertByTime e l).Perm (e :: l) := by
  induction l with
  | nil => simp [insertByTime]
  | cons f fs ih =>
    simp only [insertByTime]
    split
    · exact List.Perm.refl _
    · exact (List.Perm.cons f ih).trans (List.Perm.swap e f fs)

theorem sortByTime_perm (l : List Ev) : (sortByTime l).Perm l := by
  induction l with
  | nil => simp [sortByTime]
  | cons e es ih =>
    exact (insertByTime_perm e (sortByTime es)).trans (ih.cons e)

theorem length_sortByTime (l : List Ev) : (sortByTime l).length = l.length :=
  (sortByTime_perm l).length_eq

theorem mem_sortByTime {a : Ev} {l : List Ev} : a ∈ sortByTime l ↔ a ∈ l :=
  (sortByTime_perm l).mem_iff

/-! Lemmas about the events of one wave. -/

theorem length_waveEvs (base t0 : Nat) (wave : List ItemBeh) :
    (waveEvs base t0 wave).length = wave.length := by
  simp [waveEvs]

theorem waveEvs_map_beh (base t0 : Nat) (wave : List ItemBeh) :
    (waveEvs base t0 wave).map Ev.beh = wave := by
  simp only [waveEvs, List.map_map]
  have h : (Ev.beh ∘ fun p : Nat × ItemBeh => Ev.mk (base + p.1) p.1 (t0 + p.2.duration) p.2)
      = Prod.snd := by
    funext p; rfl
  rw [h, List.enum_map_snd]

theorem waveEvs_map_gIdx (base t0 : Nat) (wave : List ItemBeh) :
    (waveEvs base t0 wave).map Ev.gIdx = List.range' base wave.length := by
  simp only [waveEvs, List.map_map]
  have h : (Ev.gIdx ∘ fun p : Nat × ItemBeh => Ev.mk (base + p.1) p.1 (t0 + p.2.duration) p.2)
      = fun p : Nat × ItemBeh => base + p.1 := by
    funext p; rfl
  rw [h]
  have h2 : (fun p : Nat × ItemBeh => base + p.1)
      = (fun n => base + n) ∘ Prod.fst := by
    funext p; rfl
  rw [h2, ← List.map_map, List.enum_map_fst, List.range_eq_range', List.map_add_range']
  simp

theorem mem_waveEvs_beh {wave : List ItemBeh} {b : ItemBeh} (base t0 : Nat) :
    b ∈ wave ↔ ∃ e ∈ waveEvs base t0 wave, e.beh = b := by
  have hm := waveEvs_map_beh base t0 wave
  constructor
  · intro hb
    rw [← hm] at hb
    obtain ⟨e, he, rfl⟩ := List.mem_map.mp hb
    exact ⟨e, he, rfl⟩
  · rintro ⟨e, he, rfl⟩
    rw [← hm]
    exact List.mem_map_of_mem Ev.beh he

/-! Effect of running the settlement callbacks of a wave, by induction over
the event list. -/

theorem foldl_applyEv_log (cfg : Cfg) (total tb wlen : Nat) (bA : Bool)
    (evs : List Ev) (st : RunSt) :
    (evs.foldl (applyEv cfg total tb wlen bA) st).log = st.log ++ evs.map entryOf := by
  induction evs generalizing st with
  | nil => simp
  | cons e es ih =>
    rw [List.foldl_cons, ih]
    simp [applyEv, updateProgress]
    split <;> simp

theorem foldl_applyEv_completed (cfg : Cfg) (total tb wlen : Nat) (bA : Bool)
    (evs : List Ev) (st : RunSt) :
    (evs.foldl (applyEv cfg total tb wlen bA) st).completed = st.completed + evs.length := by
  induction evs generalizing st with
  | nil => simp
  | cons e es ih =>
    rw [List.foldl_cons, ih]
    simp only [applyEv, updateProgress]
    split <;> simp <;> omega

theorem foldl_applyEv_failed (cfg : Cfg) (total tb wlen : Nat) (bA : Bool)
    (evs : List Ev) (st : RunSt) :
    (evs.foldl (applyEv cfg total tb wlen bA) st).failed
      = st.failed + evs.countP (fun e => !e.beh.isOk) := by
  induction evs generalizing st with
  | nil => simp
  | cons e es ih =>
    rw [List.foldl_cons, ih, List.countP_cons]
    simp only [applyEv, updateProgress]
    split <;> split <;> simp_all <;> omega

theorem foldl_applyEv_results (cfg : Cfg) (total tb wlen : Nat) (bA : Bool)
    (evs : List Ev) (st : RunSt) :
    (evs.foldl (applyEv cfg total tb wlen bA) st).results = st.results := by
  induction evs generalizing st with
  | nil => simp
  | cons e es ih =>
    rw [List.foldl_cons, ih]
    simp [applyEv, updateProgress]
    split <;> simp

theorem foldl_applyEv_curBatch (cfg : Cfg) (total tb wlen : Nat) (bA : Bool)
    (evs : List Ev) (st : RunSt) :
    (evs.foldl (applyEv cfg total tb wlen bA) st).curBatch = st.curBatch := by
  induction evs generalizing st with
  | nil => simp
  | cons e es ih =>
    rw [List.foldl_cons, ih]
    simp [applyEv, updateProgress]
    split <;> simp

/-! Theory of `slices`: the consecutive-chunk decomposition. -/

theorem slices_nil {α : Type} (b : Nat) : slices b ([] : List α) = [] := by
  cases b with
  | zero => simp [slices]
  | succ k => simp [slices, Nat.div_eq_of_lt]

theorem length_slices {α : Type} (b : Nat) (l : List α) :
    (slices b l).length = (l.length + b - 1) / b := by
  simp [slices]

theorem slices_cons {α : Type} {b : Nat} (hb : 0 < b) {l : List α} (hl : l ≠ []) :
    slices b l = l.take b :: slices b (l.drop b) := by
  have hn : 1 ≤ l.length := List.length_pos.mpr hl
  have h1 : (l.length + b - 1) / b = (l.length - 1) / b + 1 := by
    rw [show l.length + b - 1 = (l.length - 1) + b by omega, Nat.add_div_right _ hb]
  have h2 : ((l.drop b).length + b - 1) / b = (l.length - 1) / b := by
    rw [List.length_drop]
    rcases Nat.le_total b l.length with h | h
    · rw [show l.length - b + b - 1 = l.length - 1 by omega]
    · rw [show l.length - b = 0 by omega]
      rw [Nat.div_eq_of_lt (by omega), Nat.div_eq_of_lt (by omega)]
  show (List.range ((l.length + b - 1) / b)).map _ = _
  rw [h1, List.range_succ_eq_map, List.map_cons, List.map_map]
  congr 1
  · simp
  · show _ = slices b (l.drop b)
    unfold slices
    rw [h2]
    apply List.map_congr_left
    intro i _
    show (l.drop (Nat.succ i * b)).take b = ((l.drop b).drop (i * b)).take b
    rw [List.drop_drop]
    congr 2
    rw [Nat.succ_eq_add_one]
    ring

theorem flatten_slices {α : Type} {b : Nat} (hb : 0 < b) :
    ∀ l : List α, (slices b l).flatten = l
  | [] => by rw [slices_nil]; rfl
  | x :: xs => by
    rw [slices_cons hb (by simp), List.flatten_cons,
      flatten_slices hb ((x :: xs).drop b), List.take_append_drop]
  termination_by l => l.length
  decreasing_by simp; omega

theorem mem_slices {α : Type} {b : Nat} (hb : 0 < b) {l : List α} {c : List α}
    (hc : c ∈ slices b l) : c.length ≤ b ∧ c ≠ [] := by
  obtain ⟨i, hi, rfl⟩ := List.mem_map.mp hc
  rw [List.mem_range] at hi
  have hn : 1 ≤ l.length := by
    rcases Nat.eq_zero_or_pos l.length with h0 | h1
    · exfalso
      rw [h0, Nat.zero_add, Nat.div_eq_of_lt (by omega)] at hi
      omega
    · exact h1
  have h1 : i + 1 ≤ (l.length + b - 1) / b := hi
  have h2 : (i + 1) * b ≤ l.length + b - 1 := (Nat.le_div_iff_mul_le hb).mp h1
  have hexp : (i + 1) * b = i * b + b := by ring
  have hib : i * b < l.length := by omega
  refine ⟨by simp, ?_⟩
  have hlen : ((l.drop (i * b)).take b).length = min b (l.length - i * b) := by simp
  intro hnil
  rw [hnil] at hlen
  simp at hlen
  omega

theorem dropLast_slices_length {α : Type} {b : Nat} (hb : 0 < b) {l : List α} {c : List α}
    (hc : c ∈ (slices b l).dropLast) : c.length = b := by
  rcases hm : (l.length + b - 1) / b with _ | m
  · have hnil : slices b l = [] := by simp [slices, hm]
    rw [hnil] at hc
    simp at hc
  · have hsl : slices b l
        = (List.range m).map (fun i => (l.drop (i * b)).take b)
          ++ [(l.drop (m * b)).take b] := by
      show (List.range ((l.length + b - 1) / b)).map _ = _
      rw [hm, List.range_succ, List.map_append]
      rfl
    rw [hsl, List.dropLast_concat] at hc
    obtain ⟨i, hi, rfl⟩ := List.mem_map.mp hc
    rw [List.mem_range] at hi
    have hn : 1 ≤ l.length := by
      rcases Nat.eq_zero_or_pos l.length with h0 | h1
      · exfalso
        rw [h0, Nat.zero_add, Nat.div_eq_of_lt (by omega)] at hm
        omega
      · exact h1
    have h1 : i + 1 + 1 ≤ (l.length + b - 1) / b := by omega
    have h2 : i + 1 ≤ (l.length - 1) / b := by
      rw [show l.length + b - 1 = (l.length - 1) + b by omega,
        Nat.add_div_right _ hb] at h1
      omega
    have h3 : (i + 1) * b ≤ l.length - 1 := (Nat.le_div_iff_mul_le hb).mp h2
    have hexp : (i + 1) * b = i * b + b := by ring
    have hfull : i * b + b ≤ l.length := by omega
    simp
    omega

/-- The per-slice offset view: slice `j` starts at in-list offset `j * b`;
`offsetRanges` pairs each slice with its range of global indices, starting
from base index `a`. -/
def offsetRanges (b : Nat) : List (List α) → Nat → List (List Nat)
  | [], _ => []
  | c :: cs, a => List.range' a c.length :: offsetRanges b cs (a + b)

theorem flatten_offsetRanges_slices {α : Type} {b : Nat} (hb : 0 < b) :
    ∀ (l : List α) (a : Nat),
      (offsetRanges b (slices b l) a).flatten = List.range' a l.length
  | [], a => by rw [slices_nil]; simp [offsetRanges]
  | x :: xs, a => by
    rw [slices_cons hb (by simp)]
    show (List.range' a ((x :: xs).take b).length ::
        offsetRanges b (slices b ((x :: xs).drop b)) (a + b)).flatten = _
    rw [List.flatten_cons, flatten_offsetRanges_slices hb ((x :: xs).drop b) (a + b)]
    rcases Nat.le_total (x :: xs).length b with h | h
    · rw [List.take_of_length_le h, List.drop_eq_nil_of_le h]
      simp
    · rw [List.length_take, List.length_drop, Nat.min_eq_left h]
      have := List.range'_append a b ((x :: xs).length - b) 1
      rw [Nat.one_mul] at this
      rw [this]
      congr 1
      omega
  termination_by l => l.length
  decreasing_by simp; omega

theorem enumFrom_map_offsetRanges {α : Type} (b : Nat) (L : List (List α)) :
    ∀ (a k : Nat),
      (L.enumFrom k).map (fun p => List.range' (a + (p.1 - k) * b) p.2.length)
        = offsetRanges b L a := by
  induction L with
  | nil => intro a k; rfl
  | cons c cs ih =>
    intro a k
    rw [List.enumFrom_cons, List.map_cons, Nat.sub_self, Nat.zero_mul, Nat.add_zero]
    rw [offsetRanges]
    congr 1
    rw [← ih (a + b) (k + 1)]
    apply List.map_congr_left
    intro p hp
    have hk : k + 1 ≤ p.1 := by
      have := List.mem_enumFrom hp
      omega
    congr 1
    have : p.1 - k = (p.1 - (k + 1)) + 1 := by omega
    rw [this]
    ring

theorem enum_map_offsetRanges {α : Type} (b : Nat) (L : List (List α)) (a : Nat) :
    L.enum.map (fun p => List.range' (a + p.1 * b) p.2.length) = offsetRanges b L a := by
  have h := enumFrom_map_offsetRanges b L a 0
  rw [← h]
  rfl

/-! Validity of the effective sizes, and the shapes of the chunk and wave
decompositions. -/

/-- A size option is valid when absent or nonnegative.  (A negative
`batchSize` silently yields zero chunks and a negative `concurrent` makes
the source wave loop diverge — see claim C6; all positive claims assume
validity.) -/
def validSize : Option Int → Bool
  | none => true
  | some b => decide (0 ≤ b)

/-- Validity of an effective configuration. -/
def Cfg.valid (cfg : Cfg) : Bool :=
  validSize cfg.batchSize && validSize cfg.concurrent

theorem jsChunks_none {α : Type} (items : List α) : jsChunks none items = [items] := rfl

theorem jsChunks_zero {α : Type} (items : List α) : jsChunks (some 0) items = [items] := rfl

theorem jsChunks_pos {α : Type} {b : Int} (hb : 0 < b) (items : List α) :
    jsChunks (some b) items = slices b.toNat items := by
  have h0 : (b == 0) = false := by
    simp only [beq_eq_false_iff_ne, ne_eq]
    omega
  simp [jsChunks, h0, hb]

theorem chunkWaves_none {α : Type} (chunk : List α) : chunkWaves none chunk = [chunk] := rfl

theorem chunkWaves_zero {α : Type} (chunk : List α) :
    chunkWaves (some 0) chunk = [chunk] := rfl

theorem chunkWaves_small {α : Type} {k : Int} (hk : k ≠ 0)
    {chunk : List α} (hlen : ¬((chunk.length : Int) > k)) :
    chunkWaves (some k) chunk = [chunk] := by
  have h0 : (k == 0) = false := by
    simp only [beq_eq_false_iff_ne, ne_eq]
    exact hk
  simp [chunkWaves, h0, hlen]

theorem chunkWaves_split {α : Type} {k : Int} (hk : 0 < k)
    {chunk : List α} (hlen : (chunk.length : Int) > k) :
    chunkWaves (some k) chunk = slices k.toNat chunk := by
  have h0 : (k == 0) = false := by
    simp only [beq_eq_false_iff_ne, ne_eq]
    omega
  simp [chunkWaves, h0, hlen, hk]

theorem flatten_jsChunks {α : Type} {bs : Option Int} (h : validSize bs = true)
    (items : List α) : (jsChunks bs items).flatten = items := by
  match bs with
  | none => simp [jsChunks_none]
  | some b =>
    simp only [validSize, decide_eq_true_eq] at h
    rcases eq_or_lt_of_le h with h0 | hpos
    · rw [← h0, jsChunks_zero]
      simp
    · rw [jsChunks_pos hpos]
      exact flatten_slices (by omega) items

theorem flatten_chunkWaves {α : Type} {conc : Option Int} (h : validSize conc = true)
    (chunk : List α) : (chunkWaves conc chunk).flatten = chunk := by
  match conc with
  | none => simp [chunkWaves_none]
  | some k =>
    simp only [validSize, decide_eq_true_eq] at h
    rcases eq_or_lt_of_le h with h0 | hpos
    · rw [← h0, chunkWaves_zero]
      simp
    · by_cases hlen : (chunk.length : Int) > k
      · rw [chunkWaves_split hpos hlen]
        exact flatten_slices (by omega) chunk
      · rw [chunkWaves_small (by omega) hlen]
        simp

theorem flatten_flatMap {α β : Type} (l : List α) (g : α → List (List β)) :
    (l.flatMap g).flatten = l.flatMap fun a => (g a).flatten := by
  induction l with
  | nil => rfl
  | cons x xs ih => simp [List.flatMap_cons, List.flatten_append, ih]

theorem waveInfos_wave_flatten (cfg : Cfg) (items : List ItemBeh)
    (h : cfg.valid = true) :
    ((waveInfos cfg items).map WaveInfo.wave).flatten = items := by
  obtain ⟨h1, h2⟩ := Bool.and_eq_true_iff.mp h
  unfold waveInfos
  rw [List.map_flatMap]
  have hsnd : ∀ pc : Nat × List ItemBeh,
      ((chunkWaves cfg.concurrent pc.2).enum.map fun pw =>
        WaveInfo.mk pc.1
          (pc.1 * baseFactor cfg.batchSize items.length + pw.1 * concStep cfg.concurrent)
          pw.2).map WaveInfo.wave
      = chunkWaves cfg.concurrent pc.2 := by
    intro pc
    rw [List.map_map]
    have : (WaveInfo.wave ∘ fun pw : Nat × List ItemBeh =>
        WaveInfo.mk pc.1
          (pc.1 * baseFactor cfg.batchSize items.length + pw.1 * concStep cfg.concurrent)
          pw.2) = Prod.snd := by
      funext pw; rfl
    rw [this, List.enum_map_snd]
  calc ((jsChunks cfg.batchSize items).enum.flatMap fun pc =>
          ((chunkWaves cfg.concurrent pc.2).enum.map fun pw =>
            WaveInfo.mk pc.1
              (pc.1 * baseFactor cfg.batchSize items.length + pw.1 * concStep cfg.concurrent)
              pw.2).map WaveInfo.wave).flatten
      = ((jsChunks cfg.batchSize items).enum.flatMap fun pc =>
          chunkWaves cfg.concurrent pc.2).flatten := by
        congr 1
        apply List.flatMap_congr  -- may not exist; fallback below
        intro pc _
        exact hsnd pc
    _ = items := by
        rw [flatten_flatMap]
        have : ((jsChunks cfg.batchSize items).enum.flatMap fun pc =>
            (chunkWaves cfg.concurrent pc.2).flatten)
            = (jsChunks cfg.batchSize items).enum.flatMap fun pc => pc.2 := by
          apply List.flatMap_congr
          intro pc _
          exact flatten_chunkWaves h2 pc.2
        rw [this, List.flatMap_def, List.enum_map_snd]
        exact flatten_jsChunks h1 items

theorem chunkWaves_ranges {conc : Option Int} (h : validSize conc = true)
    (chunk : List ItemBeh) (A : Nat) :
    ((chunkWaves conc chunk).enum.map fun pw =>
        List.range' (A + pw.1 * concStep conc) pw.2.length).flatten
      = List.range' A chunk.length := by
  match conc with
  | none =>
    rw [chunkWaves_none]
    simp [concStep]
  | some k =>
    simp only [validSize, decide_eq_true_eq] at h
    rcases eq_or_lt_of_le h with h0 | hpos
    · rw [← h0, chunkWaves_zero]
      simp [concStep]
    · by_cases hlen : (chunk.length : Int) > k
      · rw [chunkWaves_split hpos hlen]
        show ((slices k.toNat chunk).enum.map fun pw =>
          List.range' (A + pw.1 * k.toNat) pw.2.length).flatten = _
        rw [enum_map_offsetRanges]
        exact flatten_offsetRanges_slices (by omega) chunk A
      · rw [chunkWaves_small (by omega) hlen]
        simp [concStep]

theorem jsChunks_ranges {bs : Option Int} (h : validSize bs = true)
    (items : List ItemBeh) :
    ((jsChunks bs items).enum.map fun pc =>
        List.range' (pc.1 * baseFactor bs items.length) pc.2.length).flatten
      = List.range' 0 items.length := by
  match bs with
  | none =>
    rw [jsChunks_none]
    simp [baseFactor]
  | some b =>
    simp only [validSize, decide_eq_true_eq] at h
    rcases eq_or_lt_of_le h with h0 | hpos
    · rw [← h0, jsChunks_zero]
      simp [baseFactor]
    · rw [jsChunks_pos hpos]
      have hbf : baseFactor (some b) items.length = b.toNat := by
        have h0 : (b == 0) = false := by
          simp only [beq_eq_false_iff_ne, ne_eq]
          omega
        simp [baseFactor, h0]
      rw [hbf]
      have hmap : ((slices b.toNat items).enum.map fun pc =>
          List.range' (pc.1 * b.toNat) pc.2.length)
          = (slices b.toNat items).enum.map fun pc =>
            List.range' (0 + pc.1 * b.toNat) pc.2.length := by
        apply List.map_congr_left
        intro pc _
        rw [Nat.zero_add]
      rw [hmap, enum_map_offsetRanges]
      exact flatten_offsetRanges_slices (by omega) items 0

theorem waveInfos_ranges_flatten (cfg : Cfg) (items : List ItemBeh)
    (h : cfg.valid = true) :
    ((waveInfos cfg items).map fun w => List.range' w.base w.wave.length).flatten
      = List.range items.length := by
  obtain ⟨h1, h2⟩ := Bool.and_eq_true_iff.mp h
  unfold waveInfos
  rw [List.map_flatMap]
  have hinner : ∀ pc : Nat × List ItemBeh,
      (((chunkWaves cfg.concurrent pc.2).enum.map fun pw =>
        WaveInfo.mk pc.1
          (pc.1 * baseFactor cfg.batchSize items.length + pw.1 * concStep cfg.concurrent)
          pw.2).map fun w => List.range' w.base w.wave.length)
      = (chunkWaves cfg.concurrent pc.2).enum.map fun pw =>
          List.range'
            (pc.1 * baseFactor cfg.batchSize items.length + pw.1 * concStep cfg.concurrent)
            pw.2.length := by
    intro pc
    rw [List.map_map]
    rfl
  calc ((jsChunks cfg.batchSize items).enum.flatMap fun pc =>
        ((chunkWaves cfg.concurrent pc.2).enum.map fun pw =>
          WaveInfo.mk pc.1
            (pc.1 * baseFactor cfg.batchSize items.length + pw.1 * concStep cfg.concurrent)
            pw.2).map fun w => List.range' w.base w.wave.length).flatten
      = ((jsChunks cfg.batchSize items).enum.flatMap fun pc =>
          (chunkWaves cfg.concurrent pc.2).enum.map fun pw =>
            List.range'
              (pc.1 * baseFactor cfg.batchSize items.length + pw.1 * concStep cfg.concurrent)
              pw.2.length).flatten := by
        congr 1
        apply List.flatMap_congr
        intro pc _
        exact hinner pc
    _ = (jsChunks cfg.batchSize items).enum.flatMap fun pc =>
          List.range' (pc.1 * baseFactor cfg.batchSize items.length) pc.2.length := by
        rw [flatten_flatMap]
        apply List.flatMap_congr
        intro pc _
        exact chunkWaves_ranges h2 pc.2 _
    _ = List.range items.length := by
        rw [List.flatMap_def, jsChunks_ranges h1 items, List.range_eq_range']

/-- The wave lengths of a valid configuration sum to the item count. -/
theorem waveInfos_length_sum (cfg : Cfg) (items : List ItemBeh)
    (h : cfg.valid = true) :
    ((waveInfos cfg items).map fun w => w.wave.length).sum = items.length := by
  have hf := waveInfos_wave_flatten cfg items h
  have := congrArg List.length hf
  rw [List.length_flatten, List.map_map] at this
  exact this

/-- Every item of every wave is an item of the batch. -/
theorem waveInfos_mem (cfg : Cfg) (items : List ItemBeh) (h : cfg.valid = true)
    {w : WaveInfo} (hw : w ∈ waveInfos cfg items) {b : ItemBeh} (hb : b ∈ w.wave) :
    b ∈ items := by
  rw [← waveInfos_wave_flatten cfg items h]
  rw [List.mem_flatten]
  exact ⟨w.wave, List.mem_map_of_mem WaveInfo.wave hw, hb⟩

/-! Field preservation of `updateProgress` and the per-wave run lemmas. -/

theorem updateProgress_completed (cfg : Cfg) (total tb inProg : Nat) (st : RunSt) :
    (updateProgress cfg total tb inProg st).completed = st.completed := by
  unfold updateProgress; split <;> rfl

theorem updateProgress_failed (cfg : Cfg) (total tb inProg : Nat) (st : RunSt) :
    (updateProgress cfg total tb inProg st).failed = st.failed := by
  unfold updateProgress; split <;> rfl

theorem updateProgress_log (cfg : Cfg) (total tb inProg : Nat) (st : RunSt) :
    (updateProgress cfg total tb inProg st).log = st.log := by
  unfold updateProgress; split <;> rfl

theorem updateProgress_time (cfg : Cfg) (total tb inProg : Nat) (st : RunSt) :
    (updateProgress cfg total tb inProg st).time = st.time := by
  unfold updateProgress; split <;> rfl

theorem updateProgress_curBatch (cfg : Cfg) (total tb inProg : Nat) (st : RunSt) :
    (updateProgress cfg total tb inProg st).curBatch = st.curBatch := by
  unfold updateProgress; split <;> rfl

theorem updateProgress_results (cfg : Cfg) (total tb inProg : Nat) (st : RunSt) :
    (updateProgress cfg total tb inProg st).results = st.results := by
  unfold updateProgress; split <;> rfl

theorem evErr_eq_none_iff (e : Ev) : evErr e = none ↔ e.beh.isOk = true := by
  unfold evErr ItemBeh.isOk
  cases e.beh.outcome <;> simp

theorem entryOf_index (e : Ev) : (entryOf e).index = e.gIdx := by
  unfold entryOf
  cases e.beh.outcome <;> rfl

theorem entryOf_failed {e : Ev} {err : Nat} (h : evErr e = some err) :
    (entryOf e).status = .failed := by
  unfold evErr at h
  unfold entryOf
  cases hc : e.beh.outcome with
  | ok v => rw [hc] at h; simp at h
  | error x => rfl

theorem firstErr_eq_none_iff {base t0 : Nat} {wave : List ItemBeh} :
    firstErr (sortByTime (waveEvs base t0 wave)) = none
      ↔ ∀ b ∈ wave, b.isOk = true := by
  unfold firstErr
  rw [List.findSome?_eq_none_iff]
  constructor
  · intro h b hb
    obtain ⟨e, he, rfl⟩ := (mem_waveEvs_beh base t0).mp hb
    exact (evErr_eq_none_iff e).mp (h e (mem_sortByTime.mpr he))
  · intro h e he
    have hbeh : e.beh ∈ wave :=
      (mem_waveEvs_beh base t0).mpr ⟨e, mem_sortByTime.mp he, rfl⟩
    exact (evErr_eq_none_iff e).mpr (h e.beh hbeh)

theorem runWave_log (cfg : Cfg) (total tb : Nat) (bA : Bool) (ci base : Nat)
    (wave : List ItemBeh) (st : RunSt) :
    ((runWave cfg total tb bA ci base wave st).1).log
      = st.log ++ (sortByTime (waveEvs base st.time wave)).map entryOf := by
  unfold runWave
  simp only [updateProgress_time]
  split <;> simp [foldl_applyEv_log, updateProgress_log]

theorem runWave_completed (cfg : Cfg) (total tb : Nat) (bA : Bool) (ci base : Nat)
    (wave : List ItemBeh) (st : RunSt) :
    ((runWave cfg total tb bA ci base wave st).1).completed
      = st.completed + wave.length := by
  unfold runWave
  simp only [updateProgress_time]
  split <;>
    simp [foldl_applyEv_completed, updateProgress_completed,
      length_sortByTime, length_waveEvs]

theorem runWave_snd_eq (cfg : Cfg) (total tb : Nat) (bA : Bool) (ci base : Nat)
    (wave : List ItemBeh) (st : RunSt) :
    (runWave cfg total tb bA ci base wave st).2
      = firstErr (sortByTime (waveEvs base st.time wave)) := by
  unfold runWave
  simp only [updateProgress_time]
  split <;> simp_all

theorem runWave_ok_iff (cfg : Cfg) (total tb : Nat) (bA : Bool) (ci base : Nat)
    (wave : List ItemBeh) (st : RunSt) :
    (runWave cfg total tb bA ci base wave st).2 = none
      ↔ ∀ b ∈ wave, b.isOk = true := by
  rw [runWave_snd_eq]
  exact firstErr_eq_none_iff

theorem runWave_results_of_ok (cfg : Cfg) (total tb : Nat) (bA : Bool) (ci base : Nat)
    (wave : List ItemBeh) (st : RunSt)
    (h : (runWave cfg total tb bA ci base wave st).2 = none) :
    ((runWave cfg total tb bA ci base wave st).1).results
      = st.results ++ okValues wave := by
  unfold runWave at h ⊢
  simp only [updateProgress_time] at h ⊢
  split at h <;> simp_all [foldl_applyEv_results, updateProgress_results]

/-! Lemmas about running the whole wave sequence. -/

theorem runWaves_none_iff (cfg : Cfg) (total tb : Nat) (bA : Bool)
    (ws : List WaveInfo) (st : RunSt) :
    (runWaves cfg total tb bA ws st).2 = none
      ↔ ∀ w ∈ ws, ∀ b ∈ w.wave, b.isOk = true := by
  induction ws generalizing st with
  | nil => simp [runWaves]
  | cons w ws ih =>
    show (match runWave cfg total tb bA w.ci w.base w.wave st with
      | (st', none) => runWaves cfg total tb bA ws st'
      | (st', some e) => (st', some e)).2 = none ↔ _
    cases hw : runWave cfg total tb bA w.ci w.base w.wave st with
    | mk st1 err =>
      cases err with
      | none =>
        simp only
        rw [ih st1, List.forall_mem_cons]
        have hok : ∀ b ∈ w.wave, b.isOk = true := by
          rw [← runWave_ok_iff cfg total tb bA w.ci w.base w.wave st, hw]
        tauto
      | some e =>
        simp only
        have hbad : ¬ ∀ b ∈ w.wave, b.isOk = true := by
          rw [← runWave_ok_iff cfg total tb bA w.ci w.base w.wave st, hw]
          simp
        constructor
        · intro h; simp at h
        · intro h
          exact absurd (List.forall_mem_cons.mp h).1 hbad

theorem runWaves_results_of_ok (cfg : Cfg) (total tb : Nat) (bA : Bool)
    (ws : List WaveInfo) (st : RunSt)
    (h : (runWaves cfg total tb bA ws st).2 = none) :
    ((runWaves cfg total tb bA ws st).1).results
      = st.results ++ (ws.map fun w => okValues w.wave).flatten := by
  induction ws generalizing st with
  | nil => simp [runWaves]
  | cons w ws ih =>
    have hrw : runWaves cfg total tb bA (w :: ws) st
        = match runWave cfg total tb bA w.ci w.base w.wave st with
          | (st', none) => runWaves cfg total tb bA ws st'
          | (st', some e) => (st', some e) := rfl
    cases hw : runWave cfg total tb bA w.ci w.base w.wave st with
    | mk st1 err =>
      cases err with
      | none =>
        rw [hrw, hw] at h ⊢
        simp only at h ⊢
        rw [ih st1 h]
        have hres : st1.results = st.results ++ okValues w.wave := by
          have := runWave_results_of_ok cfg total tb bA w.ci w.base w.wave st
            (by rw [hw])
          rw [hw] at this
          exact this
        rw [hres]
        simp
      | some e =>
        rw [hrw, hw] at h
        simp at h

theorem runWaves_completed_of_ok (cfg : Cfg) (total tb : Nat) (bA : Bool)
    (ws : List WaveInfo) (st : RunSt)
    (h : (runWaves cfg total tb bA ws st).2 = none) :
    ((runWaves cfg total tb bA ws st).1).completed
      = st.completed + (ws.map fun w => w.wave.length).sum := by
  induction ws generalizing st with
  | nil => simp [runWaves]
  | cons w ws ih =>
    have hrw : runWaves cfg total tb bA (w :: ws) st
        = match runWave cfg total tb bA w.ci w.base w.wave st with
          | (st', none) => runWaves cfg total tb bA ws st'
          | (st', some e) => (st', some e) := rfl
    cases hw : runWave cfg total tb bA w.ci w.base w.wave st with
    | mk st1 err =>
      cases err with
      | none =>
        rw [hrw, hw] at h ⊢
        simp only at h ⊢
        rw [ih st1 h]
        have hc : st1.completed = st.completed + w.wave.length := by
          have := runWave_completed cfg total tb bA w.ci w.base w.wave st
          rw [hw] at this
          exact this
        rw [hc]
        simp
        omega
      | some e =>
        rw [hrw, hw] at h
        simp at h

theorem runWaves_log_perm_of_ok (cfg : Cfg) (total tb : Nat) (bA : Bool)
    (ws : List WaveInfo) (st : RunSt)
    (h : (runWaves cfg total tb bA ws st).2 = none) :
    (((runWaves cfg total tb bA ws st).1).log.map Outcome.index).Perm
      (st.log.map Outcome.index
        ++ (ws.map fun w => List.range' w.base w.wave.length).flatten) := by
  induction ws generalizing st with
  | nil => simp [runWaves]
  | cons w ws ih =>
    have hrw : runWaves cfg total tb bA (w :: ws) st
        = match runWave cfg total tb bA w.ci w.base w.wave st with
          | (st', none) => runWaves cfg total tb bA ws st'
          | (st', some e) => (st', some e) := rfl
    cases hw : runWave cfg total tb bA w.ci w.base w.wave st with
    | mk st1 err =>
      cases err with
      | none =>
        rw [hrw, hw] at h ⊢
        simp only at h ⊢
        have hlog : st1.log = st.log
            ++ (sortByTime (waveEvs w.base st.time w.wave)).map entryOf := by
          have := runWave_log cfg total tb bA w.ci w.base w.wave st
          rw [hw] at this
          exact this
        have hwaveidx : List.Perm
            (((sortByTime (waveEvs w.base st.time w.wave)).map entryOf).map Outcome.index)
            (List.range' w.base w.wave.length) := by
          rw [List.map_map]
          have hcomp : (Outcome.index ∘ entryOf) = Ev.gIdx := by
            funext e; exact entryOf_index e
          rw [hcomp]
          have h1 : List.Perm
              ((sortByTime (waveEvs w.base st.time w.wave)).map Ev.gIdx)
              ((waveEvs w.base st.time w.wave).map Ev.gIdx) :=
            (sortByTime_perm _).map Ev.gIdx
          rw [waveEvs_map_gIdx] at h1
          exact h1
        have step1 := ih st1 h
        rw [hlog, List.map_append] at step1
        have step2 : List.Perm
            ((st.log.map Outcome.index
              ++ ((sortByTime (waveEvs w.base st.time w.wave)).map entryOf).map Outcome.index)
              ++ (ws.map fun w => List.range' w.base w.wave.length).flatten)
            ((st.log.map Outcome.index ++ List.range' w.base w.wave.length)
              ++ (ws.map fun w => List.range' w.base w.wave.length).flatten) :=
          (hwaveidx.append_left _).append_right _
        have heq : (st.log.map Outcome.index ++ List.range' w.base w.wave.length)
              ++ (ws.map fun w => List.range' w.base w.wave.length).flatten
            = st.log.map Outcome.index
              ++ ((w :: ws).map fun w => List.range' w.base w.wave.length).flatten := by
          simp
        have := (step1.trans step2)
        rw [heq] at this
        exact this
      | some e =>
        rw [hrw, hw] at h
        simp at h

theorem runWaves_err_failed_mem (cfg : Cfg) (total tb : Nat) (bA : Bool)
    (ws : List WaveInfo) (st : RunSt) (e : Nat)
    (h : (runWaves cfg total tb bA ws st).2 = some e) :
    ∃ o ∈ ((runWaves cfg total tb bA ws st).1).log, o.status = .failed := by
  induction ws generalizing st with
  | nil => simp [runWaves] at h
  | cons w ws ih =>
    have hrw : runWaves cfg total tb bA (w :: ws) st
        = match runWave cfg total tb bA w.ci w.base w.wave st with
          | (st', none) => runWaves cfg total tb bA ws st'
          | (st', some e) => (st', some e) := rfl
    cases hw : runWave cfg total tb bA w.ci w.base w.wave st with
    | mk st1 err =>
      cases err with
      | none =>
        rw [hrw, hw] at h ⊢
        exact ih st1 h
      | some e1 =>
        rw [hrw, hw] at h ⊢
        simp only at h ⊢
        have hfe : firstErr (sortByTime (waveEvs w.base st.time w.wave)) = some e1 := by
          have := runWave_snd_eq cfg total tb bA w.ci w.base w.wave st
          rw [hw] at this
          exact this.symm
        obtain ⟨ev, hevmem, heverr⟩ := List.exists_of_findSome?_eq_some hfe
        have hlog : st1.log = st.log
            ++ (sortByTime (waveEvs w.base st.time w.wave)).map entryOf := by
          have := runWave_log cfg total tb bA w.ci w.base w.wave st
          rw [hw] at this
          exact this
        refine ⟨entryOf ev, ?_, entryOf_failed heverr⟩
        rw [hlog]
        rw [List.mem_append]
        right
        exact List.mem_map_of_mem entryOf hevmem

/-! Snapshot well-formedness and the run invariant collected over all
emitted snapshots. -/

/-- The derived statistics of a snapshot are exactly the `updateProgress`
formulas, as functions of the stored counters and the ghost elapsed clock:
`averageTime = elapsed / completed` (when any operation completed),
`operationsPerSecond = completed / elapsed * 1000`, and
`estimatedTimeRemaining = round(averageTime * (total - completed))` (when
moreover `averageTime` is truthy and work remains). -/
def SnapWF (s : Snapshot) : Prop :=
  s.averageTime
    = (if 0 < s.completed then some ((s.elapsedMs : ℚ) / (s.completed : ℚ)) else none) ∧
  s.operationsPerSecond
    = (if 0 < s.completed then some ((s.completed : ℚ) / (s.elapsedMs : ℚ) * 1000) else none) ∧
  s.estimatedTimeRemaining
    = (if 0 < s.completed ∧ 0 < s.elapsedMs ∧ s.completed < s.total then
        some (jsRound ((s.elapsedMs : ℚ) / (s.completed : ℚ)
          * ((s.total : ℚ) - (s.completed : ℚ))))
      else none) ∧
  s.progress
    = (if 0 < s.total then jsRound ((s.completed : ℚ) / (s.total : ℚ) * 100) else 0)

theorem mkSnapshot_wf (c t f p cb tb e : Nat) (log : List Outcome) :
    SnapWF (mkSnapshot c t f p cb tb e log) :=
  ⟨rfl, rfl, rfl, rfl⟩

/-- Invariant over the emission log: `completed` values are non-decreasing
in emission order and bounded by the settled counter `c`, every snapshot
reports the fixed `totalBatches` and is well-formed, and when the callback
is set there is at least one snapshot per settled item. -/
structure SnapsInv (cfg : Cfg) (tb : Nat) (snaps : List Snapshot) (c : Nat) : Prop where
  chain : (snaps.map Snapshot.completed).Chain' (· ≤ ·)
  bounded : ∀ s ∈ snaps, s.completed ≤ c
  tbeq : ∀ s ∈ snaps, s.totalBatches = tb
  wf : ∀ s ∈ snaps, SnapWF s
  count : cfg.hasOnProgress = true → c ≤ snaps.length

theorem snapsInv_append {cfg : Cfg} {tb : Nat} {snaps : List Snapshot} {c c2 : Nat}
    {s : Snapshot} (h : SnapsInv cfg tb snaps c) (hcc : c ≤ c2) (hsc : s.completed = c2)
    (htb : s.totalBatches = tb) (hwf : SnapWF s)
    (hcount : cfg.hasOnProgress = true → c2 ≤ snaps.length + 1) :
    SnapsInv cfg tb (snaps ++ [s]) c2 := by
  constructor
  · rw [List.map_append]
    rw [List.chain'_append]
    refine ⟨h.chain, by simp, ?_⟩
    intro x hx y hy
    simp at hy
    subst hy
    have hxmem : x ∈ snaps.map Snapshot.completed := List.mem_of_mem_getLast? hx
    obtain ⟨s0, hs0, rfl⟩ := List.mem_map.mp hxmem
    rw [hsc]
    exact le_trans (h.bounded s0 hs0) hcc
  · intro s0 hs0
    rcases List.mem_append.mp hs0 with hm | hm
    · exact le_trans (h.bounded s0 hm) hcc
    · simp at hm
      subst hm
      exact le_of_eq hsc
  · intro s0 hs0
    rcases List.mem_append.mp hs0 with hm | hm
    · exact h.tbeq s0 hm
    · simp at hm; subst hm; exact htb
  · intro s0 hs0
    rcases List.mem_append.mp hs0 with hm | hm
    · exact h.wf s0 hm
    · simp at hm; subst hm; exact hwf
  · intro hcb
    rw [List.length_append]
    simpa using hcount hcb

theorem snapsInv_updateProgress {cfg : Cfg} {tb : Nat} {st : RunSt}
    (h : SnapsInv cfg tb st.snaps st.completed) (total inProg : Nat) :
    SnapsInv cfg tb (updateProgress cfg total tb inProg st).snaps
      (updateProgress cfg total tb inProg st).completed := by
  unfold updateProgress
  cases hcb : cfg.hasOnProgress with
  | false => simpa [hcb] using h
  | true =>
    simp only [hcb, if_pos]
    exact snapsInv_append h (le_refl _) rfl rfl (mkSnapshot_wf _ _ _ _ _ _ _ _)
      (fun _ => by have := h.count hcb; omega)

theorem snapsInv_applyEv {cfg : Cfg} {tb : Nat} {st : RunSt}
    (h : SnapsInv cfg tb st.snaps st.completed) (total wlen : Nat) (bA : Bool) (e : Ev) :
    SnapsInv cfg tb (applyEv cfg total tb wlen bA st e).snaps
      (applyEv cfg total tb wlen bA st e).completed := by
  unfold applyEv updateProgress
  cases hcb : cfg.hasOnProgress with
  | false =>
    simp only [hcb, if_neg, Bool.false_eq_true, not_false_iff]
    constructor
    · exact h.chain
    · intro s0 hs0; exact le_trans (h.bounded s0 hs0) (Nat.le_succ _)
    · exact h.tbeq
    · exact h.wf
    · intro hc; rw [hc] at hcb; cases hcb
  | true =>
    simp only [hcb, if_pos]
    exact snapsInv_append h (Nat.le_succ _) rfl rfl (mkSnapshot_wf _ _ _ _ _ _ _ _)
      (fun _ => by have := h.count hcb; omega)

theorem snapsInv_foldl {cfg : Cfg} {tb : Nat} (total wlen : Nat) (bA : Bool)
    (evs : List Ev) (st : RunSt) (h : SnapsInv cfg tb st.snaps st.completed) :
    SnapsInv cfg tb ((evs.foldl (applyEv cfg total tb wlen bA) st)).snaps
      ((evs.foldl (applyEv cfg total tb wlen bA) st)).completed := by
  induction evs generalizing st with
  | nil => simpa using h
  | cons e es ih =>
    rw [List.foldl_cons]
    exact ih _ (snapsInv_applyEv h total wlen bA e)

theorem snapsInv_runWave {cfg : Cfg} {tb : Nat} (total : Nat) (bA : Bool)
    (ci base : Nat) (wave : List ItemBeh) (st : RunSt)
    (h : SnapsInv cfg tb st.snaps st.completed) :
    SnapsInv cfg tb ((runWave cfg total tb bA ci base wave st).1).snaps
      ((runWave cfg total tb bA ci base wave st).1).completed := by
  unfold runWave
  have h0 : SnapsInv cfg tb (RunSt.mk st.completed st.failed st.log st.snaps st.time ci
      st.results).snaps (RunSt.mk st.completed st.failed st.log st.snaps st.time ci
      st.results).completed := h
  have h1 := snapsInv_updateProgress h0 total wave.length
  have h2 := snapsInv_foldl total wave.length bA
    (sortByTime (waveEvs base (updateProgress cfg total tb wave.length
      (RunSt.mk st.completed st.failed st.log st.snaps st.time ci st.results)).time wave))
    _ h1
  dsimp only
  split <;> exact h2

theorem snapsInv_runWaves {cfg : Cfg} {tb : Nat} (total : Nat) (bA : Bool)
    (ws : List WaveInfo) (st : RunSt)
    (h : SnapsInv cfg tb st.snaps st.completed) :
    SnapsInv cfg tb ((runWaves cfg total tb bA ws st).1).snaps
      ((runWaves cfg total tb bA ws st).1).completed := by
  induction ws generalizing st with
  | nil => simpa [runWaves] using h
  | cons w ws ih =>
    have hrweq : runWaves cfg total tb bA (w :: ws) st
        = match runWave cfg total tb bA w.ci w.base w.wave st with
          | (st', none) => runWaves cfg total tb bA ws st'
          | (st', some e) => (st', some e) := rfl
    have hw := snapsInv_runWave total bA w.ci w.base w.wave st h
    cases hrw : runWave cfg total tb bA w.ci w.base w.wave st with
    | mk st1 err =>
      rw [hrw] at hw
      rw [hrweq, hrw]
      dsimp only at hw
      cases err with
      | none => exact ih st1 hw
      | some e => exact hw

/-- The snapshot invariant holds of every completed `processBatch` call. -/
theorem processBatch_snapsInv (cfg : Cfg) (items : List ItemBeh) :
    SnapsInv cfg (jsChunks cfg.batchSize items).length
      ((processBatch cfg items).1).snaps ((processBatch cfg items).1).completed := by
  unfold processBatch
  dsimp only
  have h0 : SnapsInv cfg (jsChunks cfg.batchSize items).length initSt.snaps
      initSt.completed := by
    constructor <;> simp [initSt]
  have h1 := snapsInv_updateProgress h0 items.length 0
  have h2 := snapsInv_runWaves items.length
    (!truthy cfg.batchSize && !truthy cfg.concurrent) (waveInfos cfg items) _ h1
  cases hr : runWaves cfg items.length (jsChunks cfg.batchSize items).length
      (!truthy cfg.batchSize && !truthy cfg.concurrent) (waveInfos cfg items)
      (updateProgress cfg items.length (jsChunks cfg.batchSize items).length 0 initSt) with
  | mk st1 err =>
    rw [hr] at h2
    dsimp only at h2 ⊢
    cases err with
    | none => exact snapsInv_updateProgress h2 items.length 0
    | some e => exact h2

/-- On resolution, the settled counter equals the item count. -/
theorem processBatch_completed_of_ok (cfg : Cfg) (items : List ItemBeh)
    (hv : cfg.valid = true) {rs : List Nat}
    (h : (processBatch cfg items).2 = .ok rs) :
    ((processBatch cfg items).1).completed = items.length := by
  unfold processBatch at *
  dsimp only at h ⊢
  cases hr : runWaves cfg items.length (jsChunks cfg.batchSize items).length
      (!truthy cfg.batchSize && !truthy cfg.concurrent) (waveInfos cfg items)
      (updateProgress cfg items.length (jsChunks cfg.batchSize items).length 0 initSt) with
  | mk st1 err =>
    cases err with
    | none =>
      dsimp only at h ⊢
      rw [updateProgress_completed]
      have hc := runWaves_completed_of_ok cfg items.length
        (jsChunks cfg.batchSize items).length
        (!truthy cfg.batchSize && !truthy cfg.concurrent) (waveInfos cfg items)
        (updateProgress cfg items.length (jsChunks cfg.batchSize items).length 0 initSt)
        (by rw [hr])
      rw [hr] at hc
      simp only at hc
      rw [hc, updateProgress_completed]
      show initSt.completed + _ = _
      rw [waveInfos_length_sum cfg items hv]
      simp [initSt]
    | some e =>
      rw [hr] at h
      simp at h

/-- On resolution with the callback set, the last emitted snapshot reports
the final settled counter. -/
theorem processBatch_final_snap (cfg : Cfg) (items : List ItemBeh)
    (hcb : cfg.hasOnProgress = true) {rs : List Nat}
    (h : (processBatch cfg items).2 = .ok rs) :
    ∃ s, ((processBatch cfg items).1).snaps.getLast? = some s
      ∧ s.completed = ((processBatch cfg items).1).completed := by
  unfold processBatch at *
  dsimp only at h ⊢
  cases hr : runWaves cfg items.length (jsChunks cfg.batchSize items).length
      (!truthy cfg.batchSize && !truthy cfg.concurrent) (waveInfos cfg items)
      (updateProgress cfg items.length (jsChunks cfg.batchSize items).length 0 initSt) with
  | mk st1 err =>
    cases err with
    | none =>
      dsimp only at h ⊢
      refine ⟨mkSnapshot st1.completed items.length st1.failed 0 st1.curBatch
        (jsChunks cfg.batchSize items).length st1.time st1.log, ?_, ?_⟩
      · unfold updateProgress
        rw [hcb]
        simp
      · unfold updateProgress
        rw [hcb]
        simp [mkSnapshot]
    | some e =>
      rw [hr] at h
      simp at h

/-! Top-level characterisations of `processBatch`. -/

theorem waveInfos_forall_iff (cfg : Cfg) (items : List ItemBeh) (hv : cfg.valid = true) :
    (∀ w ∈ waveInfos cfg items, ∀ b ∈ w.wave, b.isOk = true)
      ↔ ∀ b ∈ items, b.isOk = true := by
  constructor
  · intro hb b hbmem
    rw [← waveInfos_wave_flatten cfg items hv] at hbmem
    rw [List.mem_flatten] at hbmem
    obtain ⟨l, hl, hbl⟩ := hbmem
    obtain ⟨w, hw, rfl⟩ := List.mem_map.mp hl
    exact hb w hw b hbl
  · intro hb w hw b hbw
    exact hb b (waveInfos_mem cfg items hv hw hbw)

/-- The batch promise resolves exactly when every item's request succeeds
(the rethrow at the per-item `catch` otherwise rejects the enclosing
`Promise.all` and with it `processBatch`). -/
theorem processBatch_isOk_iff (cfg : Cfg) (items : List ItemBeh)
    (hv : cfg.valid = true) :
    ((processBatch cfg items).2.isOk = true) ↔ ∀ b ∈ items, b.isOk = true := by
  unfold processBatch
  dsimp only
  cases hr : runWaves cfg items.length (jsChunks cfg.batchSize items).length
      (!truthy cfg.batchSize && !truthy cfg.concurrent) (waveInfos cfg items)
      (updateProgress cfg items.length (jsChunks cfg.batchSize items).length 0 initSt) with
  | mk st1 err =>
    have hiff := runWaves_none_iff cfg items.length
      (jsChunks cfg.batchSize items).length
      (!truthy cfg.batchSize && !truthy cfg.concurrent) (waveInfos cfg items)
      (updateProgress cfg items.length (jsChunks cfg.batchSize items).length 0 initSt)
    rw [hr] at hiff
    cases err with
    | none =>
      dsimp only
      simp only [Except.isOk, Except.toBool]
      rw [← waveInfos_forall_iff cfg items hv, ← hiff]
      simp
    | some e =>
      dsimp only
      simp only [Except.isOk, Except.toBool]
      rw [← waveInfos_forall_iff cfg items hv, ← hiff]
      simp

/-- On rejection, some outcome with status `failed` was pushed to the log. -/
theorem processBatch_err_failed (cfg : Cfg) (items : List ItemBeh) {e : Nat}
    (h : (processBatch cfg items).2 = .error e) :
    ∃ o ∈ ((processBatch cfg items).1).log, o.status = .failed := by
  unfold processBatch at *
  dsimp only at h ⊢
  cases hr : runWaves cfg items.length (jsChunks cfg.batchSize items).length
      (!truthy cfg.batchSize && !truthy cfg.concurrent) (waveInfos cfg items)
      (updateProgress cfg items.length (jsChunks cfg.batchSize items).length 0 initSt) with
  | mk st1 err =>
    cases err with
    | none =>
      rw [hr] at h
      simp at h
    | some e1 =>
      have := runWaves_err_failed_mem cfg items.length
        (jsChunks cfg.batchSize items).length
        (!truthy cfg.batchSize && !truthy cfg.concurrent) (waveInfos cfg items)
        (updateProgress cfg items.length (jsChunks cfg.batchSize items).length 0 initSt)
        e1 (by rw [hr])
      rw [hr] at this
      exact this

/-- On resolution the returned array is the success value of every item, in
submission order. -/
theorem processBatch_ok_results (cfg : Cfg) (items : List ItemBeh)
    (hv : cfg.valid = true) {rs : List Nat}
    (h : (processBatch cfg items).2 = .ok rs) : rs = okValues items := by
  unfold processBatch at h
  dsimp only at h
  cases hr : runWaves cfg items.length (jsChunks cfg.batchSize items).length
      (!truthy cfg.batchSize && !truthy cfg.concurrent) (waveInfos cfg items)
      (updateProgress cfg items.length (jsChunks cfg.batchSize items).length 0 initSt) with
  | mk st1 err =>
    cases err with
    | none =>
      rw [hr] at h
      dsimp only at h
      have hres := runWaves_results_of_ok cfg items.length
        (jsChunks cfg.batchSize items).length
        (!truthy cfg.batchSize && !truthy cfg.concurrent) (waveInfos cfg items)
        (updateProgress cfg items.length (jsChunks cfg.batchSize items).length 0 initSt)
        (by rw [hr])
      rw [hr] at hres
      dsimp only at hres
      have hrs : rs = st1.results := by
        injection h with h1
        exact h1.symm
      rw [hrs, hres, updateProgress_results]
      show initSt.results ++ _ = _
      have hseq : ((waveInfos cfg items).map fun w => okValues w.wave).flatten
          = okValues items := by
        conv_rhs => rw [← waveInfos_wave_flatten cfg items hv]
        unfold okValues
        rw [List.map_flatten, List.map_map]
        rfl
      rw [hseq]
      rfl
    | some e1 =>
      rw [hr] at h
      simp at h

/-- On resolution the accumulated log indexes every submitted item exactly
once (as a permutation of `0..N-1`). -/
theorem processBatch_log_perm (cfg : Cfg) (items : List ItemBeh)
    (hv : cfg.valid = true) {rs : List Nat}
    (h : (processBatch cfg items).2 = .ok rs) :
    (((processBatch cfg items).1).log.map Outcome.index).Perm
      (List.range items.length) := by
  unfold processBatch at *
  dsimp only at h ⊢
  cases hr : runWaves cfg items.length (jsChunks cfg.batchSize items).length
      (!truthy cfg.batchSize && !truthy cfg.concurrent) (waveInfos cfg items)
      (updateProgress cfg items.length (jsChunks cfg.batchSize items).length 0 initSt) with
  | mk st1 err =>
    cases err with
    | none =>
      dsimp only
      have hp := runWaves_log_perm_of_ok cfg items.length
        (jsChunks cfg.batchSize items).length
        (!truthy cfg.batchSize && !truthy cfg.concurrent) (waveInfos cfg items)
        (updateProgress cfg items.length (jsChunks cfg.batchSize items).length 0 initSt)
        (by rw [hr])
      rw [hr] at hp
      dsimp only at hp
      rw [updateProgress_log]
      have hinit : (updateProgress cfg items.length
          (jsChunks cfg.batchSize items).length 0 initSt).log = [] := by
        rw [updateProgress_log]
        rfl
      rw [hinit] at hp
      simp only [List.map_nil, List.nil_append] at hp
      rw [waveInfos_ranges_flatten cfg items hv] at hp
      exact hp
    | some e1 =>
      rw [hr] at h
      simp at h

/-- In the default batch configuration (no chunking, no concurrency bound)
every item is settled and logged even when some items fail: the log always
has one entry per item. -/
theorem processBatch_log_length_default (hp : Bool) (items : List ItemBeh) :
    ((processBatch ⟨none, none, hp⟩ items).1).log.length = items.length := by
  have hwi : waveInfos ⟨none, none, hp⟩ items = [⟨0, 0, items⟩] := by
    show ([items].enum.flatMap fun pc => ([pc.2].enum.map fun pw =>
      WaveInfo.mk pc.1 (pc.1 * baseFactor none items.length + pw.1 * concStep none)
        pw.2)) = _
    simp [List.enum, concStep, baseFactor]
  unfold processBatch
  dsimp only
  rw [hwi]
  cases hrw : runWave ⟨none, none, hp⟩ items.length
      (jsChunks (Cfg.mk none none hp).batchSize items).length
      (!truthy (Cfg.mk none none hp).batchSize && !truthy (Cfg.mk none none hp).concurrent)
      0 0 items
      (updateProgress ⟨none, none, hp⟩ items.length
        (jsChunks (Cfg.mk none none hp).batchSize items).length 0 initSt) with
  | mk st1 err =>
    have hlog := runWave_log ⟨none, none, hp⟩ items.length
      (jsChunks (Cfg.mk none none hp).batchSize items).length
      (!truthy (Cfg.mk none none hp).batchSize && !truthy (Cfg.mk none none hp).concurrent)
      0 0 items
      (updateProgress ⟨none, none, hp⟩ items.length
        (jsChunks (Cfg.mk none none hp).batchSize items).length 0 initSt)
    rw [hrw] at hlog
    dsimp only at hlog
    have hlen : st1.log.length = items.length := by
      rw [hlog, updateProgress_log]
      show (initSt.log ++ _).length = _
      simp [initSt, length_sortByTime, length_waveEvs]
    show (match runWaves _ _ _ _ [WaveInfo.mk 0 0 items] _ with
      | (st', none) => (updateProgress _ _ _ 0 st', Except.ok st'.results)
      | (st', some e) => (st', Except.error e)).1.log.length = _
    have hrws : runWaves ⟨none, none, hp⟩ items.length
        (jsChunks (Cfg.mk none none hp).batchSize items).length
        (!truthy (Cfg.mk none none hp).batchSize
          && !truthy (Cfg.mk none none hp).concurrent)
        [WaveInfo.mk 0 0 items]
        (updateProgress ⟨none, none, hp⟩ items.length
          (jsChunks (Cfg.mk none none hp).batchSize items).length 0 initSt)
        = match runWave ⟨none, none, hp⟩ items.length
            (jsChunks (Cfg.mk none none hp).batchSize items).length
            (!truthy (Cfg.mk none none hp).batchSize
              && !truthy (Cfg.mk none none hp).concurrent)
            0 0 items
            (updateProgress ⟨none, none, hp⟩ items.length
              (jsChunks (Cfg.mk none none hp).batchSize items).length 0 initSt) with
          | (st', none) => runWaves _ _ _ _ [] st'
          | (st', some e) => (st', some e) := rfl
    rw [hrws, hrw]
    cases err with
    | none =>
      show (updateProgress _ _ _ 0 _).log.length = _
      rw [updateProgress_log]
      exact hlen
    | some e =>
      exact hlen

/-! Launch/settle traces of the wave loop, for the concurrency-bound
claim. -/

/-- A scheduling event of the wave loop: item `g` (global index) is
launched — its `async` callback starts and issues the request — or
settles. -/
inductive TEv
  | launch (g : Nat)
  | settle (g : Nat)
deriving Repr, DecidableEq

/-- Whether the event is a launch. -/
def TEv.isLaunch : TEv → Bool
  | .launch _ => true
  | .settle _ => false

/-- Whether the event is a settlement. -/
def TEv.isSettle : TEv → Bool
  | .launch _ => false
  | .settle _ => true

/-- The trace of one `Promise.all` wave: all items are launched in
submission order when the wave starts, then settle in completion order, and
the loop only continues (`await Promise.all`) once all have settled.
(Settlement order within a wave depends only on the items' durations, so
the wave is traced from virtual time 0.) -/
def waveTrace (base : Nat) (wave : List ItemBeh) : List TEv :=
  (wave.enum.map fun p => TEv.launch (base + p.1))
    ++ (sortByTime (waveEvs base 0 wave)).map fun e => TEv.settle e.gIdx

/-- The per-wave trace blocks of one chunk processed with concurrency limit
`k` (source lines 250-299). -/
def chunkBlocks (k : Int) (chunk : List ItemBeh) : List (List TEv) :=
  (chunkWaves (some k) chunk).enum.map fun pw => waveTrace (pw.1 * k.toNat) pw.2

/-- The full launch/settle trace of one chunk. -/
def chunkTrace (k : Int) (chunk : List ItemBeh) : List TEv :=
  (chunkBlocks k chunk).flatten

/-- A trace block of width at most `K`: at most `K` launches followed by
their settlements. -/
def BlockOK (K : Nat) (bl : List TEv) : Prop :=
  ∃ m, m ≤ K ∧ ∃ L S, bl = L ++ S ∧ L.length = m ∧ S.length = m
    ∧ (∀ x ∈ L, x.isLaunch = true) ∧ (∀ x ∈ S, x.isSettle = true)

theorem countP_launch_settle {x : TEv} (hl : x.isLaunch = true) :
    x.isSettle = false := by
  cases x with
  | launch g => rfl
  | settle g => cases hl

theorem block_counts {K : Nat} {bl : List TEv} (h : BlockOK K bl) :
    bl.countP TEv.isLaunch = bl.countP TEv.isSettle
      ∧ bl.countP TEv.isLaunch ≤ K := by
  obtain ⟨m, hm, L, S, rfl, hL, hS, hall, hset⟩ := h
  have hcl : L.countP TEv.isLaunch = m := by
    rw [← hL]
    exact List.countP_eq_length.mpr hall
  have hcs : S.countP TEv.isSettle = m := by
    rw [← hS]
    exact List.countP_eq_length.mpr hset
  have hcl0 : S.countP TEv.isLaunch = 0 := by
    rw [List.countP_eq_zero]
    intro x hx
    have hs := hset x hx
    cases x with
    | launch g => simp [TEv.isSettle] at hs
    | settle g => simp [TEv.isLaunch]
  have hcs0 : L.countP TEv.isSettle = 0 := by
    rw [List.countP_eq_zero]
    intro x hx
    have hl2 := hall x hx
    cases x with
    | launch g => simp [TEv.isSettle]
    | settle g => simp [TEv.isLaunch] at hl2
  rw [List.countP_append, List.countP_append, hcl, hcs, hcl0, hcs0]
  omega

theorem block_prefix_bound {K : Nat} {bl : List TEv} (h : BlockOK K bl) (n : Nat) :
    (bl.take n).countP TEv.isLaunch ≤ K := by
  obtain ⟨m, hm, L, S, rfl, hL, hS, hall, hset⟩ := h
  have hsub : ((L ++ S).take n).Sublist (L ++ S) := List.take_sublist n _
  have hle := hsub.countP_le TEv.isLaunch
  have hfull : (L ++ S).countP TEv.isLaunch = m := by
    have hOK : BlockOK K (L ++ S) := ⟨m, hm, L, S, rfl, hL, hS, hall, hset⟩
    have h1 := block_counts hOK
    have hcl : L.countP TEv.isLaunch = m := by
      rw [← hL]
      exact List.countP_eq_length.mpr hall
    have hcl0 : S.countP TEv.isLaunch = 0 := by
      rw [List.countP_eq_zero]
      intro x hx
      have hs := hset x hx
      cases x with
      | launch g => simp [TEv.isSettle] at hs
      | settle g => simp [TEv.isLaunch]
    rw [List.countP_append, hcl, hcl0]
    omega
  omega

/-- Prefix invariant of a sequence of trace blocks, each of width at most
`K`: at no point do the launched-but-unsettled items exceed `K`. -/
theorem blocks_prefix_bound {K : Nat} :
    ∀ (blocks : List (List TEv)), (∀ bl ∈ blocks, BlockOK K bl) → ∀ n,
      ((blocks.flatten.take n).countP TEv.isLaunch)
        ≤ ((blocks.flatten.take n).countP TEv.isSettle) + K := by
  intro blocks
  induction blocks with
  | nil => intro _ n; simp
  | cons bl rest ih =>
    intro hall n
    rw [List.flatten_cons, List.take_append_eq_append_take, List.countP_append,
      List.countP_append]
    have hbl := hall bl (by simp)
    rcases Nat.le_total n bl.length with hn | hn
    · have h2 : n - bl.length = 0 := by omega
      rw [h2]
      simp only [List.take_zero, List.countP_nil]
      have := block_prefix_bound hbl n
      omega
    · rw [List.take_of_length_le hn]
      have hbal := (block_counts hbl).1
      have hrest := ih (fun b hb => hall b (by simp [hb])) (n - bl.length)
      omega

/-- After any whole number of blocks, launches and settlements balance:
every launched item of the previous waves has settled. -/
theorem blocks_balanced {K : Nat} :
    ∀ (blocks : List (List TEv)), (∀ bl ∈ blocks, BlockOK K bl) → ∀ j,
      (((blocks.take j).flatten).countP TEv.isLaunch)
        = (((blocks.take j).flatten).countP TEv.isSettle) := by
  intro blocks
  induction blocks with
  | nil => intro _ j; simp
  | cons bl rest ih =>
    intro hall j
    cases j with
    | zero => simp
    | succ j =>
      rw [List.take_succ_cons, List.flatten_cons, List.countP_append, List.countP_append]
      have hbal := (block_counts (hall bl (by simp))).1
      have := ih (fun b hb => hall b (by simp [hb])) j
      omega

/-- Each wave of an over-long chunk under limit `K` is a block of width at
most `K`. -/
theorem waveTrace_blockOK {K : Nat} {wave : List ItemBeh} (hw : wave.length ≤ K)
    (base : Nat) : BlockOK K (waveTrace base wave) := by
  unfold BlockOK waveTrace
  refine ⟨wave.length, hw, _, _, rfl, by simp, by simp [length_sortByTime, length_waveEvs],
    ?_, ?_⟩
  · intro x hx
    obtain ⟨p, _, rfl⟩ := List.mem_map.mp hx
    rfl
  · intro x hx
    obtain ⟨e, _, rfl⟩ := List.mem_map.mp hx
    rfl

/-! Support lemmas for the configuration-validation claim: a zero size is
falsy and behaves exactly like an absent one, and a negative batch size
yields zero chunks. -/

theorem jsChunks_neg {α : Type} {b : Int} (hb : b < 0) (items : List α) :
    jsChunks (some b) items = [] := by
  have h0 : (b == 0) = false := by
    simp only [beq_eq_false_iff_ne, ne_eq]
    omega
  have h1 : ¬ (0 < b) := by omega
  simp [jsChunks, h0, h1]

theorem updateProgress_congr (cfg1 cfg2 : Cfg)
    (h : cfg1.hasOnProgress = cfg2.hasOnProgress) :
    updateProgress cfg1 = updateProgress cfg2 := by
  funext total tb inProg st
  unfold updateProgress
  rw [h]

theorem applyEv_congr (cfg1 cfg2 : Cfg)
    (h : cfg1.hasOnProgress = cfg2.hasOnProgress) :
    applyEv cfg1 = applyEv cfg2 := by
  funext total tb wlen bA st e
  unfold applyEv
  rw [updateProgress_congr cfg1 cfg2 h]

theorem runWave_congr (cfg1 cfg2 : Cfg)
    (h : cfg1.hasOnProgress = cfg2.hasOnProgress) :
    runWave cfg1 = runWave cfg2 := by
  funext total tb bA ci base wave st
  unfold runWave
  rw [updateProgress_congr cfg1 cfg2 h, applyEv_congr cfg1 cfg2 h]

theorem runWaves_congr (cfg1 cfg2 : Cfg)
    (h : cfg1.hasOnProgress = cfg2.hasOnProgress) (total tb : Nat) (bA : Bool) :
    ∀ (ws : List WaveInfo) (st : RunSt),
      runWaves cfg1 total tb bA ws st = runWaves cfg2 total tb bA ws st
  | [], _ => rfl
  | w :: ws, st => by
    show (match runWave cfg1 total tb bA w.ci w.base w.wave st with
      | (st', none) => runWaves cfg1 total tb bA ws st'
      | (st', some e) => (st', some e))
      = (match runWave cfg2 total tb bA w.ci w.base w.wave st with
      | (st', none) => runWaves cfg2 total tb bA ws st'
      | (st', some e) => (st', some e))
    rw [runWave_congr cfg1 cfg2 h]
    cases runWave cfg2 total tb bA w.ci w.base w.wave st with
    | mk st1 err =>
      cases err with
      | none => exact runWaves_congr cfg1 cfg2 h total tb bA ws st1
      | some e => rfl

theorem waveInfos_zero_eq (hp : Bool) (items : List ItemBeh) :
    waveInfos ⟨some 0, some 0, hp⟩ items = waveInfos ⟨none, none, hp⟩ items := rfl

/-- A zero `batchSize`/`concurrent` pair is falsy at every truthiness test
and so the whole run is identical to the one with both options absent. -/
theorem processBatch_zero_eq (hp : Bool) (items : List ItemBeh) :
    processBatch ⟨some 0, some 0, hp⟩ items = processBatch ⟨none, none, hp⟩ items := by
  unfold processBatch
  dsimp only
  rw [runWaves_congr ⟨some 0, some 0, hp⟩ ⟨none, none, hp⟩ rfl,
    updateProgress_congr ⟨some 0, some 0, hp⟩ ⟨none, none, hp⟩ rfl,
    waveInfos_zero_eq]
  rfl

/-- A negative `batchSize` yields zero chunks: the call resolves at once
with an empty result array, no item is processed and no error is raised. -/
theorem processBatch_neg_batchSize (hp : Bool) {b : Int} (hb : b < 0)
    (conc : Option Int) (items : List ItemBeh) :
    (processBatch ⟨some b, conc, hp⟩ items).2 = Except.ok []
      ∧ ((processBatch ⟨some b, conc, hp⟩ items).1).log = [] := by
  unfold processBatch
  dsimp only
  have hwv : waveInfos ⟨some b, conc, hp⟩ items = [] := by
    unfold waveInfos
    show ((jsChunks (some b) items).enum.flatMap _) = []
    rw [jsChunks_neg hb]
    rfl
  rw [hwv]
  have hrw0 : runWaves (⟨some b, conc, hp⟩ : Cfg) items.length
      (jsChunks (some b) items).length (!truthy (some b) && !truthy conc)
      ([] : List WaveInfo)
      (updateProgress ⟨some b, conc, hp⟩ items.length
        (jsChunks (some b) items).length 0 initSt)
      = (updateProgress ⟨some b, conc, hp⟩ items.length
          (jsChunks (some b) items).length 0 initSt, none) := rfl
  rw [hrw0]
  dsimp only
  refine ⟨?_, ?_⟩
  · rw [updateProgress_results]
    rfl
  · rw [updateProgress_log, updateProgress_log]
    rfl

/-- Placeholder snapshot for out-of-range indexing of the emission log; it
satisfies the `updateProgress` formulas vacuously. -/
def dfltSnap : Snapshot := mkSnapshot 0 0 0 0 0 0 0 []

/-! Claim theorems. -/

/-- Claim C1, counterexample: a two-item batch in the default configuration
in which item 0 succeeds and item 1 fails.  Both items settle and are
logged — the failure with status `failed` — but, contrary to the claim,
the batch promise does not resolve with a result array: the per-item catch
rethrows, so `Promise.all`, and with it `processBatch`, rejects with the
failing item's error. -/
theorem claimC1_counterexample :
    (processBatch ⟨none, none, false⟩ [⟨0, Except.ok 7⟩, ⟨0, Except.error 5⟩]).2
        = Except.error 5
      ∧ ((processBatch ⟨none, none, false⟩
          [⟨0, Except.ok 7⟩, ⟨0, Except.error 5⟩]).1).log.map Outcome.status
        = [OpStatus.completed, OpStatus.failed] := by
  decide

/-- Claim C1, amended: for every valid configuration, the batch promise
resolves iff every item's request succeeds; when it rejects, the failing
item has nevertheless been recorded in the outcome log with status
`failed`; and in the default configuration (one `Promise.all` over all
items) a failure does not stop the other items — the log still receives
exactly one entry per item.  The rejection (rather than resolution with a
result array) is what the original claim got wrong. -/
theorem claimC1_theorem (cfg : Cfg) (items : List ItemBeh) (hv : cfg.valid = true) :
    (((processBatch cfg items).2.isOk = true) ↔ ∀ b ∈ items, b.isOk = true)
      ∧ (∀ e, (processBatch cfg items).2 = Except.error e →
          ∃ o ∈ ((processBatch cfg items).1).log, o.status = OpStatus.failed)
      ∧ (cfg.batchSize = none → cfg.concurrent = none →
          ((processBatch cfg items).1).log.length = items.length) := by
  refine ⟨processBatch_isOk_iff cfg items hv, ?_, ?_⟩
  · intro e he
    exact processBatch_err_failed cfg items he
  · intro hb hc
    obtain ⟨bs, conc, hp⟩ := cfg
    simp only at hb hc
    subst hb
    subst hc
    exact processBatch_log_length_default hp items

theorem claimC1_witness :
    (((processBatch ⟨none, none, false⟩
          [⟨0, Except.ok 7⟩, ⟨0, Except.error 5⟩]).2.isOk = true)
        ↔ ∀ b ∈ [(⟨0, Except.ok 7⟩ : ItemBeh), ⟨0, Except.error 5⟩], b.isOk = true)
      ∧ (∀ e, (processBatch ⟨none, none, false⟩
            [⟨0, Except.ok 7⟩, ⟨0, Except.error 5⟩]).2 = Except.error e →
          ∃ o ∈ ((processBatch ⟨none, none, false⟩
              [⟨0, Except.ok 7⟩, ⟨0, Except.error 5⟩]).1).log,
            o.status = OpStatus.failed)
      ∧ ((⟨none, none, false⟩ : Cfg).batchSize = none →
          (⟨none, none, false⟩ : Cfg).concurrent = none →
          ((processBatch ⟨none, none, false⟩
              [⟨0, Except.ok 7⟩, ⟨0, Except.error 5⟩]).1).log.length
            = ([(⟨0, Except.ok 7⟩ : ItemBeh), ⟨0, Except.error 5⟩] : List ItemBeh).length) :=
  claimC1_theorem ⟨none, none, false⟩ [⟨0, Except.ok 7⟩, ⟨0, Except.error 5⟩] (by decide)

/-- Claim C2: when a batch run with a valid configuration resolves, every
submitted index `0..N-1` appears exactly once in the accumulated outcome
log, and the resolved array holds the result of item `i` at position `i` —
for every assignment of per-item durations, hence regardless of the order
in which items completed. -/
theorem claimC2_theorem (cfg : Cfg) (items : List ItemBeh) (rs : List Nat)
    (hv : cfg.valid = true) (h : (processBatch cfg items).2 = Except.ok rs) :
    ((((processBatch cfg items).1).log.map Outcome.index).Perm
        (List.range items.length))
      ∧ (∀ i, i < items.length →
          (((processBatch cfg items).1).log.map Outcome.index).count i = 1)
      ∧ rs.length = items.length
      ∧ ∀ (i : Nat) (h1 : i < items.length) (h2 : i < rs.length),
          (items.get ⟨i, h1⟩).outcome = Except.ok (rs.get ⟨i, h2⟩) := by
  have hperm := processBatch_log_perm cfg items hv h
  have hrs := processBatch_ok_results cfg items hv h
  have hallok : ∀ b ∈ items, b.isOk = true := by
    rw [← processBatch_isOk_iff cfg items hv, h]
    rfl
  refine ⟨hperm, ?_, ?_, ?_⟩
  · intro i hi
    rw [hperm.count_eq]
    exact List.count_eq_one_of_mem (List.nodup_range _) (List.mem_range.mpr hi)
  · rw [hrs]
    unfold okValues
    simp
  · intro i h1 h2
    subst hrs
    have hmem := List.get_mem items i h1
    have hok := hallok _ hmem
    unfold ItemBeh.isOk at hok
    unfold okValues
    rw [List.get_map]
    cases hoc : (items.get ⟨i, h1⟩).outcome with
    | ok v => rfl
    | error err => rw [hoc] at hok; simp at hok

theorem claimC2_witness :
    ((((processBatch ⟨some 2, some 1, false⟩
          [⟨5, Except.ok 10⟩, ⟨3, Except.ok 20⟩, ⟨1, Except.ok 30⟩]).1).log.map
            Outcome.index).Perm (List.range 3))
      ∧ (∀ i, i < ([(⟨5, Except.ok 10⟩ : ItemBeh), ⟨3, Except.ok 20⟩,
            ⟨1, Except.ok 30⟩] : List ItemBeh).length →
          (((processBatch ⟨some 2, some 1, false⟩
              [⟨5, Except.ok 10⟩, ⟨3, Except.ok 20⟩, ⟨1, Except.ok 30⟩]).1).log.map
                Outcome.index).count i = 1)
      ∧ ([10, 20, 30] : List Nat).length
          = ([(⟨5, Except.ok 10⟩ : ItemBeh), ⟨3, Except.ok 20⟩,
              ⟨1, Except.ok 30⟩] : List ItemBeh).length
      ∧ ∀ (i : Nat)
          (h1 : i < ([(⟨5, Except.ok 10⟩ : ItemBeh), ⟨3, Except.ok 20⟩,
            ⟨1, Except.ok 30⟩] : List ItemBeh).length)
          (h2 : i < ([10, 20, 30] : List Nat).length),
          (([(⟨5, Except.ok 10⟩ : ItemBeh), ⟨3, Except.ok 20⟩,
            ⟨1, Except.ok 30⟩] : List ItemBeh).get ⟨i, h1⟩).outcome
            = Except.ok (([10, 20, 30] : List Nat).get ⟨i, h2⟩) := by
  have := claimC2_theorem ⟨some 2, some 1, false⟩
    [⟨5, Except.ok 10⟩, ⟨3, Except.ok 20⟩, ⟨1, Except.ok 30⟩] [10, 20, 30]
    (by decide) (by decide)
  exact this

/-- Claim C3: a positive `chunkSize` `C` splits a nonempty item list into
consecutive chunks of length `C` whose last chunk may be shorter, every
emitted snapshot reports `totalBatches = ceil(N / C) = (N + C - 1) / C`,
and an unset `chunkSize` yields a single chunk with `totalBatches = 1`. -/
theorem claimC3_theorem (C : Nat) (conc : Option Int) (hp : Bool)
    (items : List ItemBeh) (hC : 0 < C) (_hN : 1 ≤ items.length)
    (_hconc : validSize conc = true) :
    ((jsChunks (some (C : Int)) items).flatten = items
      ∧ (∀ c ∈ jsChunks (some (C : Int)) items, c.length ≤ C ∧ c ≠ [])
      ∧ (∀ c ∈ (jsChunks (some (C : Int)) items).dropLast, c.length = C)
      ∧ (jsChunks (some (C : Int)) items).length = (items.length + C - 1) / C
      ∧ (∀ s ∈ ((processBatch ⟨some (C : Int), conc, hp⟩ items).1).snaps,
          s.totalBatches = (items.length + C - 1) / C))
      ∧ jsChunks none items = [items]
      ∧ ∀ s ∈ ((processBatch ⟨none, conc, hp⟩ items).1).snaps,
          s.totalBatches = 1 := by
  have hCi : (0 : Int) < (C : Int) := by omega
  have htn : ((C : Int)).toNat = C := Int.toNat_natCast C
  have hje : jsChunks (some (C : Int)) items = slices C items := by
    rw [jsChunks_pos hCi, htn]
  refine ⟨⟨?_, ?_, ?_, ?_, ?_⟩, rfl, ?_⟩
  · rw [hje]
    exact flatten_slices hC items
  · rw [hje]
    intro c hc
    exact mem_slices hC hc
  · rw [hje]
    intro c hc
    exact dropLast_slices_length hC hc
  · rw [hje, length_slices]
  · intro s hs
    have htb := (processBatch_snapsInv ⟨some (C : Int), conc, hp⟩ items).tbeq s hs
    rw [htb]
    show (jsChunks (some (C : Int)) items).length = _
    rw [hje, length_slices]
  · intro s hs
    have htb := (processBatch_snapsInv ⟨none, conc, hp⟩ items).tbeq s hs
    rw [htb]
    rfl

theorem claimC3_witness :
    ((jsChunks (some ((2 : Nat) : Int))
        [(⟨0, Except.ok 1⟩ : ItemBeh), ⟨0, Except.ok 2⟩, ⟨0, Except.ok 3⟩]).flatten
        = [(⟨0, Except.ok 1⟩ : ItemBeh), ⟨0, Except.ok 2⟩, ⟨0, Except.ok 3⟩]
      ∧ (∀ c ∈ jsChunks (some ((2 : Nat) : Int))
          [(⟨0, Except.ok 1⟩ : ItemBeh), ⟨0, Except.ok 2⟩, ⟨0, Except.ok 3⟩],
          c.length ≤ 2 ∧ c ≠ [])
      ∧ (∀ c ∈ (jsChunks (some ((2 : Nat) : Int))
          [(⟨0, Except.ok 1⟩ : ItemBeh), ⟨0, Except.ok 2⟩, ⟨0, Except.ok 3⟩]).dropLast,
          c.length = 2)
      ∧ (jsChunks (some ((2 : Nat) : Int))
          [(⟨0, Except.ok 1⟩ : ItemBeh), ⟨0, Except.ok 2⟩, ⟨0, Except.ok 3⟩]).length
        = (([(⟨0, Except.ok 1⟩ : ItemBeh), ⟨0, Except.ok 2⟩,
            ⟨0, Except.ok 3⟩] : List ItemBeh).length + 2 - 1) / 2
      ∧ (∀ s ∈ ((processBatch ⟨some ((2 : Nat) : Int), none, true⟩
          [⟨0, Except.ok 1⟩, ⟨0, Except.ok 2⟩, ⟨0, Except.ok 3⟩]).1).snaps,
          s.totalBatches
            = (([(⟨0, Except.ok 1⟩ : ItemBeh), ⟨0, Except.ok 2⟩,
                ⟨0, Except.ok 3⟩] : List ItemBeh).length + 2 - 1) / 2))
      ∧ jsChunks none [(⟨0, Except.ok 1⟩ : ItemBeh), ⟨0, Except.ok 2⟩, ⟨0, Except.ok 3⟩]
        = [[(⟨0, Except.ok 1⟩ : ItemBeh), ⟨0, Except.ok 2⟩, ⟨0, Except.ok 3⟩]]
      ∧ ∀ s ∈ ((processBatch ⟨none, none, true⟩
          [⟨0, Except.ok 1⟩, ⟨0, Except.ok 2⟩, ⟨0, Except.ok 3⟩]).1).snaps,
          s.totalBatches = 1 :=
  claimC3_theorem 2 none true
    [⟨0, Except.ok 1⟩, ⟨0, Except.ok 2⟩, ⟨0, Except.ok 3⟩]
    (by decide) (by decide) (by decide)

/-- Claim C4: a chunk longer than a positive concurrency limit `K` is
processed in consecutive waves of at most `K` items each; in the resulting
launch/settle trace at no point are more than `K` items of the chunk
launched but unsettled, and after each whole wave every launched item has
settled before the next wave's items are launched. -/
theorem claimC4_theorem (K : Nat) (chunk : List ItemBeh) (hK : 0 < K)
    (hlen : K < chunk.length) :
    ((chunkWaves (some (K : Int)) chunk).flatten = chunk
      ∧ (∀ w ∈ chunkWaves (some (K : Int)) chunk, w.length ≤ K ∧ w ≠ [])
      ∧ (∀ n, ((chunkTrace (K : Int) chunk).take n).countP TEv.isLaunch
          ≤ ((chunkTrace (K : Int) chunk).take n).countP TEv.isSettle + K)
      ∧ (∀ j, (((chunkBlocks (K : Int) chunk).take j).flatten).countP TEv.isLaunch
          = (((chunkBlocks (K : Int) chunk).take j).flatten).countP TEv.isSettle)) := by
  have hKi : (0 : Int) < (K : Int) := by omega
  have hlen2 : ((chunk.length : Int)) > (K : Int) := by
    simp only [gt_iff_lt]
    omega
  have htn : ((K : Int)).toNat = K := Int.toNat_natCast K
  have hcw : chunkWaves (some (K : Int)) chunk = slices K chunk := by
    rw [chunkWaves_split hKi hlen2, htn]
  have hall : ∀ bl ∈ chunkBlocks (K : Int) chunk, BlockOK K bl := by
    intro bl hbl
    unfold chunkBlocks at hbl
    obtain ⟨pw, hpw, rfl⟩ := List.mem_map.mp hbl
    apply waveTrace_blockOK
    obtain ⟨j, w⟩ := pw
    obtain ⟨h1a, h2a, h3a⟩ := List.mem_enumFrom hpw
    have hw : w ∈ chunkWaves (some (K : Int)) chunk := by
      rw [h3a]
      apply List.getElem_mem
    rw [hcw] at hw
    exact (mem_slices hK hw).1
  refine ⟨?_, ?_, ?_, ?_⟩
  · rw [hcw]
    exact flatten_slices hK chunk
  · intro w hw
    rw [hcw] at hw
    exact mem_slices hK hw
  · intro n
    exact blocks_prefix_bound (chunkBlocks (K : Int) chunk) hall n
  · intro j
    exact blocks_balanced (chunkBlocks (K : Int) chunk) hall j

theorem claimC4_witness :
    ((chunkWaves (some ((2 : Nat) : Int))
        [(⟨1, Except.ok 1⟩ : ItemBeh), ⟨2, Except.ok 2⟩, ⟨3, Except.ok 3⟩,
          ⟨4, Except.ok 4⟩, ⟨5, Except.ok 5⟩]).flatten
        = [(⟨1, Except.ok 1⟩ : ItemBeh), ⟨2, Except.ok 2⟩, ⟨3, Except.ok 3⟩,
          ⟨4, Except.ok 4⟩, ⟨5, Except.ok 5⟩]
      ∧ (∀ w ∈ chunkWaves (some ((2 : Nat) : Int))
          [(⟨1, Except.ok 1⟩ : ItemBeh), ⟨2, Except.ok 2⟩, ⟨3, Except.ok 3⟩,
            ⟨4, Except.ok 4⟩, ⟨5, Except.ok 5⟩], w.length ≤ 2 ∧ w ≠ [])
      ∧ (∀ n, ((chunkTrace ((2 : Nat) : Int)
          [(⟨1, Except.ok 1⟩ : ItemBeh), ⟨2, Except.ok 2⟩, ⟨3, Except.ok 3⟩,
            ⟨4, Except.ok 4⟩, ⟨5, Except.ok 5⟩]).take n).countP TEv.isLaunch
          ≤ ((chunkTrace ((2 : Nat) : Int)
            [(⟨1, Except.ok 1⟩ : ItemBeh), ⟨2, Except.ok 2⟩, ⟨3, Except.ok 3⟩,
              ⟨4, Except.ok 4⟩, ⟨5, Except.ok 5⟩]).take n).countP TEv.isSettle + 2)
      ∧ (∀ j, (((chunkBlocks ((2 : Nat) : Int)
          [(⟨1, Except.ok 1⟩ : ItemBeh), ⟨2, Except.ok 2⟩, ⟨3, Except.ok 3⟩,
            ⟨4, Except.ok 4⟩, ⟨5, Except.ok 5⟩]).take j).flatten).countP TEv.isLaunch
          = (((chunkBlocks ((2 : Nat) : Int)
            [(⟨1, Except.ok 1⟩ : ItemBeh), ⟨2, Except.ok 2⟩, ⟨3, Except.ok 3⟩,
              ⟨4, Except.ok 4⟩, ⟨5, Except.ok 5⟩]).take j).flatten).countP
                TEv.isSettle)) :=
  claimC4_theorem 2
    [⟨1, Except.ok 1⟩, ⟨2, Except.ok 2⟩, ⟨3, Except.ok 3⟩,
      ⟨4, Except.ok 4⟩, ⟨5, Except.ok 5⟩]
    (by decide) (by decide)

/-- Reduction of `execute` on a batch-qualifying `ids` call. -/
theorem execute_batch_ids (opts : FacadeOpts) (basePath : String)
    (net : String → ItemBeh) (eo : ExecOpts) (ids : List ItemBeh)
    (hids : eo.ids = some ids) (hlen : 0 < ids.length)
    (hisb : isBatchOperation opts eo = true) :
    execute opts basePath net eo
      = match processBatch (effCfg opts eo) ids with
        | (st, .ok vs) =>
          ⟨some (.batch vs), none, false, some (.batch vs), st.log, st.snaps⟩
        | (st, .error e) => ⟨none, some e, false, none, st.log, st.snaps⟩ := by
  unfold execute
  rw [hids]
  simp [hisb, hlen]

/-- Claim C5, counterexample: a delete batch of two ids, one succeeding and
one failing.  Contrary to the claim, after the call settles the facade's
top-level error ref is not null: the batch rejection is caught at line 409
of `execute`, which stores the error and returns `null`. -/
theorem claimC5_counterexample :
    (execute ⟨"delete", false, none, none, false⟩ "users" (fun _ => ⟨0, Except.ok 0⟩)
        ⟨some [⟨0, Except.ok 1⟩, ⟨0, Except.error 9⟩], none, none, none, none,
          false⟩).error = some 9 := by
  decide

/-- Claim C5, amended: in batch mode (patch/delete with a nonempty ids
list, batching not disabled, valid effective configuration) the top-level
error is null after the call settles exactly when every item's request
succeeded; when any item fails, the rejected batch promise is caught by
`execute`, which sets the error ref. -/
theorem claimC5_theorem (opts : FacadeOpts) (basePath : String)
    (net : String → ItemBeh) (eo : ExecOpts) (ids : List ItemBeh)
    (hids : eo.ids = some ids) (hlen : 0 < ids.length)
    (hdb : opts.disableBatch = false)
    (hm : jsToLower opts.method = "patch" ∨ jsToLower opts.method = "delete")
    (hv : (effCfg opts eo).valid = true) :
    ((execute opts basePath net eo).error = none ↔ ∀ b ∈ ids, b.isOk = true) := by
  have hisb : isBatchOperation opts eo = true := by
    unfold isBatchOperation
    rw [hdb, hids]
    rcases hm with h | h <;> rw [h] <;> simp [hlen]
  rw [execute_batch_ids opts basePath net eo ids hids hlen hisb]
  cases hres : processBatch (effCfg opts eo) ids with
  | mk st r =>
    cases r with
    | ok vs =>
      dsimp only
      have hok : ∀ b ∈ ids, b.isOk = true := by
        rw [← processBatch_isOk_iff (effCfg opts eo) ids hv, hres]
        rfl
      exact ⟨fun _ => hok, fun _ => rfl⟩
    | error e =>
      dsimp only
      have hbad : ¬ (∀ b ∈ ids, b.isOk = true) := by
        rw [← processBatch_isOk_iff (effCfg opts eo) ids hv, hres]
        simp [Except.isOk, Except.toBool]
      exact ⟨fun hc => absurd hc (by simp), fun hall => absurd hall hbad⟩

theorem claimC5_witness :
    ((execute ⟨"delete", false, none, none, false⟩ "users" (fun _ => ⟨0, Except.ok 0⟩)
        ⟨some [⟨0, Except.ok 1⟩], none, none, none, none, false⟩).error = none
      ↔ ∀ b ∈ [(⟨0, Except.ok 1⟩ : ItemBeh)], b.isOk = true) :=
  claimC5_theorem ⟨"delete", false, none, none, false⟩ "users"
    (fun _ => ⟨0, Except.ok 0⟩)
    ⟨some [⟨0, Except.ok 1⟩], none, none, none, none, false⟩
    [⟨0, Except.ok 1⟩] rfl (by decide) rfl (Or.inr (by decide)) (by decide)

/-- Claim C6, counterexample: a delete batch of one id executed with
`batchSize = 0` and `concurrent = 0` — values the claim says are rejected
synchronously before any work.  No configuration error is raised anywhere:
the call resolves normally, the item's request is launched and logged, and
the result array is returned. -/
theorem claimC6_counterexample :
    (execute ⟨"delete", false, none, none, false⟩ "users" (fun _ => ⟨0, Except.ok 0⟩)
        ⟨some [⟨0, Except.ok 3⟩], none, none, some 0, some 0, false⟩).error = none
      ∧ (execute ⟨"delete", false, none, none, false⟩ "users"
          (fun _ => ⟨0, Except.ok 0⟩)
          ⟨some [⟨0, Except.ok 3⟩], none, none, some 0, some 0, false⟩).ret
        = some (DataVal.batch [3])
      ∧ (execute ⟨"delete", false, none, none, false⟩ "users"
          (fun _ => ⟨0, Except.ok 0⟩)
          ⟨some [⟨0, Except.ok 3⟩], none, none, some 0, some 0, false⟩).log.length
        = 1 := by
  decide

/-- Claim C6, amended: no validation of the batch sizes exists.  A zero
`batchSize`/`concurrent` is falsy at every truthiness test, so the run is
identical to one with the options absent (single chunk, unbounded
concurrency) and the items are processed normally; a negative `batchSize`
makes `Math.ceil(n / b) ≤ 0`, so `Array.from` yields zero chunks and the
call resolves immediately with an empty array — again without raising any
error.  (A negative `concurrent` makes the source wave loop diverge and is
outside the model.) -/
theorem claimC6_theorem (hp : Bool) (items : List ItemBeh) :
    (processBatch ⟨some 0, some 0, hp⟩ items = processBatch ⟨none, none, hp⟩ items)
      ∧ ∀ (b : Int) (conc : Option Int), b < 0 →
          (processBatch ⟨some b, conc, hp⟩ items).2 = Except.ok []
          ∧ ((processBatch ⟨some b, conc, hp⟩ items).1).log = [] :=
  ⟨processBatch_zero_eq hp items,
    fun _b conc hb => processBatch_neg_batchSize hp hb conc items⟩

theorem claimC6_witness :
    (processBatch ⟨some 0, some 0, false⟩ [(⟨0, Except.ok 1⟩ : ItemBeh)]
        = processBatch ⟨none, none, false⟩ [(⟨0, Except.ok 1⟩ : ItemBeh)])
      ∧ ((processBatch ⟨some (-1), none, false⟩ [(⟨0, Except.ok 1⟩ : ItemBeh)]).2
          = Except.ok []
        ∧ ((processBatch ⟨some (-1), none, false⟩
            [(⟨0, Except.ok 1⟩ : ItemBeh)]).1).log = []) :=
  ⟨(claimC6_theorem false [⟨0, Except.ok 1⟩]).1,
    (claimC6_theorem false [⟨0, Except.ok 1⟩]).2 (-1) none (by decide)⟩

/-- Claim C7, counterexample: two items run concurrently, each taking
100 ms, in the default batch configuration.  The snapshot emitted at the
second completion has `completed = 2`, `elapsedMs = 100` and two logged
durations of 100 ms each, so the mean of the completed durations is 100 —
but the emitted `averageTimeMs` is `elapsed / completed = 50`.  The claim
that `averageTimeMs` is the arithmetic mean of the completed durations is
false. -/
theorem claimC7_counterexample :
    (((processBatch ⟨none, none, true⟩
        [⟨100, Except.ok 1⟩, ⟨100, Except.ok 2⟩]).1).snaps.getD 3 dfltSnap).completed = 2
      ∧ (((processBatch ⟨none, none, true⟩
          [⟨100, Except.ok 1⟩, ⟨100, Except.ok 2⟩]).1).snaps.getD 3 dfltSnap).elapsedMs
        = 100
      ∧ ((((processBatch ⟨none, none, true⟩
          [⟨100, Except.ok 1⟩, ⟨100, Except.ok 2⟩]).1).snaps.getD 3
            dfltSnap).results.map Outcome.duration) = [100, 100]
      ∧ (((processBatch ⟨none, none, true⟩
          [⟨100, Except.ok 1⟩, ⟨100, Except.ok 2⟩]).1).snaps.getD 3
            dfltSnap).averageTime = some ((100 : ℚ) / 2)
      ∧ ((100 : ℚ) / 2) ≠ ((100 + 100 : ℚ) / 2) := by
  refine ⟨by decide, by decide, by decide, ?_, by norm_num⟩
  have hmem : (((processBatch ⟨none, none, true⟩
      [⟨100, Except.ok 1⟩, ⟨100, Except.ok 2⟩]).1).snaps.getD 3 dfltSnap)
      ∈ ((processBatch ⟨none, none, true⟩
        [⟨100, Except.ok 1⟩, ⟨100, Except.ok 2⟩]).1).snaps := by
    rw [List.getD_eq_getElem _ _ (by decide)]
    apply List.getElem_mem
  have hwf := ((processBatch_snapsInv ⟨none, none, true⟩
    [⟨100, Except.ok 1⟩, ⟨100, Except.ok 2⟩]).wf _ hmem).1
  rw [hwf,
    show (((processBatch ⟨none, none, true⟩
        [⟨100, Except.ok 1⟩, ⟨100, Except.ok 2⟩]).1).snaps.getD 3 dfltSnap).completed = 2
      from by decide,
    show (((processBatch ⟨none, none, true⟩
        [⟨100, Except.ok 1⟩, ⟨100, Except.ok 2⟩]).1).snaps.getD 3 dfltSnap).elapsedMs
        = 100
      from by decide]
  norm_num

/-- Claim C7, amended: in every emitted snapshot the derived statistics are
the `updateProgress` formulas over the elapsed wall-clock time — not over
the completed durations: `averageTimeMs = elapsedMs / completed` when
`completed > 0` (undefined otherwise); `operationsPerSecond = completed /
elapsedMs * 1000` when `completed > 0`; `estimatedRemainingMs =
round(averageTimeMs * (total - completed))` when moreover `elapsedMs > 0`
(so that `averageTime` is truthy) and work remains, undefined otherwise —
in particular it is undefined, not zero, in the final snapshot. -/
theorem claimC7_theorem (cfg : Cfg) (items : List ItemBeh) (i : Nat) :
    SnapWF (((processBatch cfg items).1).snaps.getD i dfltSnap) := by
  rcases Nat.lt_or_ge i (((processBatch cfg items).1).snaps.length) with hlt | hge
  · have hmem : ((processBatch cfg items).1).snaps.getD i dfltSnap
        ∈ ((processBatch cfg items).1).snaps := by
      rw [List.getD_eq_getElem _ _ hlt]
      apply List.getElem_mem
    exact (processBatch_snapsInv cfg items).wf _ hmem
  · rw [List.getD_eq_default _ _ hge]
    exact mkSnapshot_wf 0 0 0 0 0 0 0 []

/-- Claim C8, counterexample: a one-item batch with a progress callback.
The `completed` values of the emitted snapshots are `[0, 0, 1, 1]`: the
count reaches `total = 1` already at the per-item snapshot and again at the
final one — two snapshots report `completed = total`, not exactly one. -/
theorem claimC8_counterexample :
    (((processBatch ⟨none, none, true⟩ [⟨1, Except.ok 5⟩]).1).snaps.map
        Snapshot.completed) = [0, 0, 1, 1]
      ∧ (((processBatch ⟨none, none, true⟩ [⟨1, Except.ok 5⟩]).1).snaps.countP
          fun s => s.completed == s.total) = 2 := by
  decide

/-- Claim C8, amended: across the emitted snapshots of one batch run the
`completed` count never decreases, at least one snapshot is emitted per
settled item, and on resolution the final snapshot reports `completed =
total` — but `completed = total` may hold in more than one trailing
snapshot (the last per-item one and the final one), not exactly once. -/
theorem claimC8_theorem (bs conc : Option Int) (items : List ItemBeh)
    (hv : (Cfg.mk bs conc true).valid = true) :
    ((((processBatch ⟨bs, conc, true⟩ items).1).snaps.map Snapshot.completed).Chain'
        (· ≤ ·))
      ∧ ((processBatch ⟨bs, conc, true⟩ items).1).completed
          ≤ ((processBatch ⟨bs, conc, true⟩ items).1).snaps.length
      ∧ ∀ rs, (processBatch ⟨bs, conc, true⟩ items).2 = Except.ok rs →
          ∃ s, ((processBatch ⟨bs, conc, true⟩ items).1).snaps.getLast? = some s
            ∧ s.completed = items.length := by
  have hinv := processBatch_snapsInv ⟨bs, conc, true⟩ items
  refine ⟨hinv.chain, hinv.count rfl, ?_⟩
  intro rs hok
  obtain ⟨s, hs1, hs2⟩ := processBatch_final_snap ⟨bs, conc, true⟩ items rfl hok
  refine ⟨s, hs1, ?_⟩
  rw [hs2]
  exact processBatch_completed_of_ok ⟨bs, conc, true⟩ items hv hok

theorem claimC8_witness :
    ((((processBatch ⟨none, none, true⟩ [⟨1, Except.ok 5⟩]).1).snaps.map
        Snapshot.completed).Chain' (· ≤ ·))
      ∧ ((processBatch ⟨none, none, true⟩ [⟨1, Except.ok 5⟩]).1).completed
          ≤ ((processBatch ⟨none, none, true⟩ [⟨1, Except.ok 5⟩]).1).snaps.length
      ∧ ∀ rs, (processBatch ⟨none, none, true⟩ [⟨1, Except.ok 5⟩]).2 = Except.ok rs →
          ∃ s, ((processBatch ⟨none, none, true⟩
              [⟨1, Except.ok 5⟩]).1).snaps.getLast? = some s
            ∧ s.completed = ([(⟨1, Except.ok 5⟩ : ItemBeh)] : List ItemBeh).length :=
  claimC8_theorem none none [⟨1, Except.ok 5⟩] (by decide)

/-- Claim C9, counterexample: a 404 response with an unparseable body.
The thrown value is `{ response: { data: { message: "Not Found" } } }`: it
carries no status anywhere `handleError` looks (contrary to the claim that
the failure contains the status code), and for the unparseable body it
holds `{ message: statusText }`, not the raw body text. -/
theorem claimC9_counterexample :
    fetchResult (.resp ⟨false, 404, "Not Found", none, false, "oops"⟩)
        = Except.error (.http ⟨.statusMsg "Not Found", none⟩)
      ∧ (ThrownVal.http ⟨.statusMsg "Not Found", none⟩).carriedStatus = none := by
  decide

/-- Claim C9, amended: a non-2xx response makes `$fetch` throw
`{ response: { data: errorData } }` where `errorData` is the parsed JSON
body when parseable and `{ message: statusText }` otherwise; the thrown
value carries no status field.  A network-level failure is rethrown as-is,
a distinct value also carrying no status. -/
theorem claimC9_theorem (r : HttpResp) (hok : r.ok = false) :
    (fetchResult (.resp r)
        = Except.error (.http ⟨(match r.jsonParse with
            | some v => ErrData.json v
            | none => ErrData.statusMsg r.statusText), none⟩))
      ∧ (∀ o, fetchResult (.resp r) = Except.error (.http o) → o.status = none)
      ∧ (∀ e, fetchResult (.netFail e) = Except.error (.net e)) := by
  have h1 : fetchResult (.resp r)
      = Except.error (.http ⟨(match r.jsonParse with
          | some v => ErrData.json v
          | none => ErrData.statusMsg r.statusText), none⟩) := by
    unfold fetchResult
    dsimp only
    rw [hok]
    rfl
  refine ⟨h1, ?_, fun e => rfl⟩
  intro o ho
  rw [h1] at ho
  injection ho with ho1
  cases ho1
  rfl

theorem claimC9_witness :
    (fetchResult (.resp ⟨false, 500, "Server Error", some 42, true, "body"⟩)
        = Except.error (.http ⟨(match (some 42 : Option Nat) with
            | some v => ErrData.json v
            | none => ErrData.statusMsg "Server Error"), none⟩))
      ∧ (∀ o, fetchResult (.resp ⟨false, 500, "Server Error", some 42, true, "body"⟩)
            = Except.error (.http o) → o.status = none)
      ∧ (∀ e, fetchResult (.netFail e) = Except.error (.net e)) :=
  claimC9_theorem ⟨false, 500, "Server Error", some 42, true, "body"⟩ rfl

/-- Claim C10: a falsy `id` (the number 0 or the empty string) is treated
as absent by both the id-presence check of `execute` (line 395) and
`buildPath`'s `filter(Boolean)` (line 141): the single-item request path is
the bare collection path, and the whole `execute` call behaves identically
to one with no id at all. -/
theorem claimC10_theorem (opts : FacadeOpts) (basePath : String)
    (net : String → ItemBeh) (eo : ExecOpts) (s : Seg)
    (hs : s.isTruthy = false) :
    singlePath basePath (some s) = basePath
      ∧ singlePath basePath none = basePath
      ∧ buildPath [Seg.str basePath, s] = buildPath [Seg.str basePath]
      ∧ execute opts basePath net { eo with id := some s }
          = execute opts basePath net { eo with id := none } := by
  have h1 : singlePath basePath (some s) = basePath := by
    simp [singlePath, hs]
  refine ⟨h1, rfl, ?_, ?_⟩
  · unfold buildPath
    have hf : List.filter Seg.isTruthy [Seg.str basePath, s]
        = List.filter Seg.isTruthy [Seg.str basePath] := by
      cases hbp : (Seg.str basePath).isTruthy <;>
        simp [List.filter_cons, hs, hbp]
    rw [hf]
  · have hib : isBatchOperation opts { eo with id := some s }
        = isBatchOperation opts { eo with id := none } := rfl
    have hcf : effCfg opts { eo with id := some s }
        = effCfg opts { eo with id := none } := rfl
    unfold execute
    dsimp only
    rw [hib, hcf, h1]
    rfl

theorem claimC10_witness :
    singlePath "users" (some (Seg.num 0)) = "users"
      ∧ singlePath "users" none = "users"
      ∧ buildPath [Seg.str "users", Seg.num 0] = buildPath [Seg.str "users"]
      ∧ execute ⟨"get", false, none, none, false⟩ "users" (fun _ => ⟨0, Except.ok 1⟩)
          { (⟨none, none, none, none, none, false⟩ : ExecOpts) with
            id := some (Seg.num 0) }
        = execute ⟨"get", false, none, none, false⟩ "users" (fun _ => ⟨0, Except.ok 1⟩)
            { (⟨none, none, none, none, none, false⟩ : ExecOpts) with id := none } :=
  claimC10_theorem ⟨"get", false, none, none, false⟩ "users"
    (fun _ => ⟨0, Except.ok 1⟩) ⟨none, none, none, none, none, false⟩
    (Seg.num 0) (by decide)

end Enfyra
